import Mathlib

/-!
Verification of the alpha-blend crate: an executable model of IEEE-754
binary32 ("f32") arithmetic, the crate's RGBA color types, the Porter-Duff
coefficient table, and the blend pipeline, together with theorems checking
the crate's specification claims.

The f32 model represents every finite float by its canonical bit-level
fields (sign, biased exponent, mantissa), identifies all NaNs, and defines
each arithmetic operation as the exact rational operation followed by
round-to-nearest-even, which is how Rust's f32 `+`, `*`, `-`, `/` behave.
Exact rational intermediates are carried by `Frac`, a raw (unreduced)
numerator/denominator pair, so that every operation evaluates by shallow
structural reduction; `Frac.toRat` maps into `ℚ` for the proofs.
-/

namespace AlphaBlend

/-- An exact (unnormalized) fraction: integer numerator over natural
denominator. All constructions keep the denominator positive. -/
structure Frac : Type where
  num : Int
  den : Nat
deriving DecidableEq, Repr

namespace Frac

/-- The rational value of a fraction. -/
def toRat (a : Frac) : ℚ := (a.num : ℚ) / (a.den : ℚ)

/-- Well-formedness: the denominator is positive. -/
def WF (a : Frac) : Prop := 0 < a.den

/-- Embed a natural number. -/
def ofNat (n : Nat) : Frac := ⟨n, 1⟩

/-- Exact product. -/
def mul (a b : Frac) : Frac := ⟨a.num * b.num, a.den * b.den⟩

/-- Exact sum. -/
def add (a b : Frac) : Frac := ⟨a.num * b.den + b.num * a.den, a.den * b.den⟩

/-- Exact negation. -/
def neg (a : Frac) : Frac := ⟨-a.num, a.den⟩

/-- Exact difference. -/
def sub (a b : Frac) : Frac := add a (neg b)

/-- Exact quotient (meaningful only for a nonzero divisor). -/
def divf (a b : Frac) : Frac :=
  if 0 ≤ b.num then ⟨a.num * b.den, a.den * b.num.toNat⟩
  else ⟨-(a.num * b.den), a.den * (-b.num).toNat⟩

/-- Strict order test (for positive denominators). -/
def blt (a b : Frac) : Bool := a.num * b.den < b.num * a.den

/-- Equality test (for positive denominators). -/
def beq (a b : Frac) : Bool := a.num * b.den = b.num * a.den

/-- Zero test (for positive denominators). -/
def isZero (a : Frac) : Bool := a.num = 0

/-- Negativity test (for positive denominators). -/
def isNeg (a : Frac) : Bool := a.num < 0

/-- Floor of a nonnegative fraction, as a natural number. -/
def natFloor (a : Frac) : Nat := a.num.toNat / a.den

end Frac

/-- `2 ^ k` as a fraction, for an integer (possibly negative) exponent. -/
def pow2 (k : Int) : Frac :=
  if 0 ≤ k then ⟨(2 ^ k.toNat : Nat), 1⟩ else ⟨1, 2 ^ (-k).toNat⟩

/-- One half as a fraction. -/
def half : Frac := ⟨1, 2⟩

/-- Fuelled base-2 logarithm on naturals (floor of log2; 0 for inputs below 2). -/
def log2fuel : Nat → Nat → Nat
  | 0, _ => 0
  | f + 1, n => if n < 2 then 0 else log2fuel f (n / 2) + 1

/-- Floor of log2 of a natural number (0 at 0 and 1). -/
def nlog2 (n : Nat) : Nat := log2fuel n n

/-- Floor of log2 of a positive fraction. -/
def qlog2 (q : Frac) : Int :=
  let c : Int := (nlog2 q.num.natAbs : Int) - (nlog2 q.den : Int)
  if q.blt (pow2 c) then c - 1 else if q.blt (pow2 (c + 1)) then c else c + 1

/-- Round `q / 2 ^ k` to the nearest natural, ties to even (for `0 ≤ q`). -/
def rnde (q : Frac) (k : Int) : Nat :=
  let t : Frac := q.mul (pow2 (-k))
  let n : Nat := t.natFloor
  let f : Frac := t.sub (Frac.ofNat n)
  if f.blt half then n
  else if half.blt f then n + 1
  else if n % 2 = 0 then n else n + 1

/-- Round a nonnegative fraction to the nearest natural, halves away from zero. -/
def haway (q : Frac) : Nat :=
  let n : Nat := q.natFloor
  if (q.sub (Frac.ofNat n)).blt half then n else n + 1

/-- Round a fraction to the nearest integer, halves away from zero. -/
def rhalfAway (q : Frac) : Int :=
  if q.isNeg then -(haway q.neg : Int) else (haway q : Int)

/-- IEEE-754 binary32 values: a single NaN, signed infinities, and finite
values given by their canonical bit fields. For a canonical finite value,
`ex` is the biased exponent field (`0` to `254`) and `man` the 23-bit
mantissa field; `ex = 0` encodes zeros and subnormals. -/
inductive F32 : Type where
  | nan : F32
  | inf (sign : Bool) : F32
  | fin (sign : Bool) (ex : Nat) (man : Nat) : F32
deriving DecidableEq, Repr

/-- The integer significand of a finite value (0 for NaN/infinity). -/
def F32.mantissa : F32 → Nat
  | .fin _ e m => if e = 0 then m else 2 ^ 23 + m
  | _ => 0

/-- The power-of-two scale of a finite value's significand. -/
def F32.expK : F32 → Int
  | .fin _ e _ => (max (e : Int) 1) - 150
  | _ => 0

/-- Magnitude (absolute value) of a finite value as an exact fraction. -/
def F32.mag (x : F32) : Frac :=
  (Frac.ofNat x.mantissa).mul (pow2 x.expK)

/-- Signed exact value of a finite value (0 for NaN/infinity). -/
def F32.val : F32 → Frac
  | .fin s e m => if s then (F32.mag (.fin s e m)).neg else F32.mag (.fin s e m)
  | _ => ⟨0, 1⟩

/-- Whether a value is a (positive or negative) zero. -/
def F32.isZero : F32 → Bool
  | .fin _ 0 0 => true
  | _ => false

/-- Whether a value is finite. -/
def F32.isFin : F32 → Bool
  | .fin _ _ _ => true
  | _ => false

/-- Replace the sign of a value (no effect on NaN). -/
def F32.withSign (s : Bool) : F32 → F32
  | .nan => .nan
  | .inf _ => .inf s
  | .fin _ e m => .fin s e m

/-- Canonicality of the bit fields: exponent at most 254, mantissa below 2^23. -/
def F32.valid : F32 → Bool
  | .fin _ e m => decide (e ≤ 254) && decide (m < 2 ^ 23)
  | _ => true

/-- IEEE equality (Rust `==` on `f32`): NaN equals nothing, the two zeros are
equal, and otherwise finite/infinite values compare by representation. -/
def F32.beq : F32 → F32 → Bool
  | .nan, _ => false
  | _, .nan => false
  | .inf s, .inf t => s == t
  | .inf _, .fin _ _ _ => false
  | .fin _ _ _, .inf _ => false
  | .fin s e m, .fin t f n =>
    ((F32.fin s e m).isZero && (F32.fin t f n).isZero) || (s == t && e == f && m == n)

/-- Round a positive fraction to the nearest binary32, ties to even,
overflowing to positive infinity. -/
def roundPos (q : Frac) : F32 :=
  let e : Int := max (qlog2 q) (-126)
  let m : Nat := rnde q (e - 23)
  let e2 : Int := if 2 ^ 24 ≤ m then e + 1 else e
  let m2 : Nat := if 2 ^ 24 ≤ m then 2 ^ 23 else m
  if 127 < e2 then F32.inf false
  else if m2 < 2 ^ 23 then F32.fin false 0 m2
  else F32.fin false (e2 + 127).toNat (m2 - 2 ^ 23)

/-- The binary32 nearest `n / d` (how Rust compiles f32 literals). -/
def lit (n : Int) (d : Nat) : F32 :=
  if n = 0 then .fin false 0 0
  else if n < 0 then (roundPos ⟨-n, d⟩).withSign true
  else roundPos ⟨n, d⟩

/-- IEEE binary32 multiplication (Rust `*` on `f32`), round to nearest even. -/
def fmul : F32 → F32 → F32
  | .nan, _ => .nan
  | _, .nan => .nan
  | .inf s, .inf t => .inf (xor s t)
  | .inf s, .fin t e m => if (F32.fin t e m).isZero then .nan else .inf (xor s t)
  | .fin s e m, .inf t => if (F32.fin s e m).isZero then .nan else .inf (xor s t)
  | .fin s e m, .fin t f n =>
    let q := ((F32.fin s e m).mag).mul ((F32.fin t f n).mag)
    if q.isZero then .fin (xor s t) 0 0 else (roundPos q).withSign (xor s t)

/-- IEEE binary32 addition (Rust `+` on `f32`), round to nearest even. -/
def fadd : F32 → F32 → F32
  | .nan, _ => .nan
  | _, .nan => .nan
  | .inf s, .inf t => if s = t then .inf s else .nan
  | .inf s, .fin _ _ _ => .inf s
  | .fin _ _ _, .inf t => .inf t
  | .fin s e m, .fin t f n =>
    let r := ((F32.fin s e m).val).add ((F32.fin t f n).val)
    if r.isZero then (if s && t then .fin true 0 0 else .fin false 0 0)
    else if r.isNeg then (roundPos r.neg).withSign true
    else roundPos r

/-- IEEE binary32 negation (Rust unary `-` on `f32`). -/
def fneg : F32 → F32
  | .nan => .nan
  | .inf s => .inf (!s)
  | .fin s e m => .fin (!s) e m

/-- IEEE binary32 subtraction (Rust `-` on `f32`). -/
def fsub (a b : F32) : F32 := fadd a (fneg b)

/-- IEEE binary32 division (Rust `/` on `f32`), round to nearest even. -/
def fdiv : F32 → F32 → F32
  | .nan, _ => .nan
  | _, .nan => .nan
  | .inf _, .inf _ => .nan
  | .inf s, .fin t _ _ => .inf (xor s t)
  | .fin s _ _, .inf t => .fin (xor s t) 0 0
  | .fin s e m, .fin t f n =>
    if (F32.fin t f n).isZero then
      (if (F32.fin s e m).isZero then .nan else .inf (xor s t))
    else if (F32.fin s e m).isZero then .fin (xor s t) 0 0
    else (roundPos (((F32.fin s e m).mag).divf ((F32.fin t f n).mag))).withSign (xor s t)

/-- `math::round` of the crate: Rust `f32::round` / `libm::roundf`, rounding
to the nearest integer-valued float with halves away from zero. -/
def round (x : F32) : F32 :=
  match x with
  | .nan => .nan
  | .inf s => .inf s
  | .fin s e m =>
    let n := haway (F32.mag (.fin s e m))
    if n = 0 then .fin s 0 0 else (roundPos (Frac.ofNat n)).withSign s

/-- Rust's narrowing cast `as u8` on f32: truncate toward zero and saturate
to `[0, 255]`; NaN casts to 0. -/
def F32.asU8 : F32 → Nat
  | .nan => 0
  | .inf s => if s then 0 else 255
  | .fin s e m => if s then 0 else min 255 (Frac.natFloor (F32.mag (.fin s e m)))

/-- Exact conversion of a small natural to binary32 (Rust `f32::from(u8)`). -/
def F32.ofNat (n : Nat) : F32 :=
  if n = 0 then .fin false 0 0 else roundPos (Frac.ofNat n)

/-- The crate's generic four-channel color (`Rgba<C>` in `rgba.rs`). -/
structure Rgba (C : Type) where
  r : C
  g : C
  b : C
  a : C
deriving DecidableEq, Repr

/-- `F32x4Rgba`: the 32-bit float color encoding. -/
abbrev F32x4Rgba := Rgba F32

/-- `U8x4Rgba`: the 8-bit color encoding (channels are `u8` values). -/
abbrev U8x4Rgba := Rgba Nat

/-- `Rgba::alpha` accessor. -/
def Rgba.alpha {C : Type} (c : Rgba C) : C := c.a

/-- The crate's `F32x4` vector (`vec4.rs`): four f32 lanes `w x y z`. -/
structure F32x4 where
  w : F32
  x : F32
  y : F32
  z : F32
deriving DecidableEq, Repr

/-- `F32x4::splat`. -/
def F32x4.splat (v : F32) : F32x4 := ⟨v, v, v, v⟩

/-- `From<F32x4Rgba> for F32x4`: the transmute relabels `r g b a` as `w x y z`. -/
def F32x4.ofRgba (c : F32x4Rgba) : F32x4 := ⟨c.r, c.g, c.b, c.a⟩

/-- `F32x4::into_rgba`: the transmute relabels `w x y z` as `r g b a`. -/
def F32x4.intoRgba (v : F32x4) : F32x4Rgba := ⟨v.w, v.x, v.y, v.z⟩

/-- `Mul<F32x4> for F32x4`: lane-wise f32 multiplication. -/
def F32x4.mulv (p q : F32x4) : F32x4 :=
  ⟨fmul p.w q.w, fmul p.x q.x, fmul p.y q.y, fmul p.z q.z⟩

/-- `Add<F32x4> for F32x4`: lane-wise f32 addition. -/
def F32x4.addv (p q : F32x4) : F32x4 :=
  ⟨fadd p.w q.w, fadd p.x q.x, fadd p.y q.y, fadd p.z q.z⟩

/-- `PorterDuff<f32, fn(f32,f32)->f32>` (`porter_duff.rs`): a pair of
coefficient functions of the two input alphas. -/
structure PorterDuff where
  src : F32 → F32 → F32
  dst : F32 → F32 → F32

/-- `PorterDuff::blend`: broadcast the two coefficients, then lane-wise
multiply-and-add the two colors viewed as vectors. -/
def PorterDuff.blend (pd : PorterDuff) (src dst : F32x4Rgba) : F32x4Rgba :=
  let srcA := F32x4.splat (pd.src src.alpha dst.alpha)
  let dstA := F32x4.splat (pd.dst src.alpha dst.alpha)
  ((srcA.mulv (F32x4.ofRgba src)).addv (dstA.mulv (F32x4.ofRgba dst))).intoRgba

namespace PorterDuff

/-- `FN_ZERO`: always `0.0`. -/
def FN_ZERO : F32 → F32 → F32 := fun _ _ => lit 0 1

/-- `FN_ONE`: always `1.0`. -/
def FN_ONE : F32 → F32 → F32 := fun _ _ => lit 1 1

/-- `FN_SRC`: the source alpha. -/
def FN_SRC : F32 → F32 → F32 := fun s _ => s

/-- `FN_DST`: the destination alpha. -/
def FN_DST : F32 → F32 → F32 := fun _ d => d

/-- `FN_ONE_MINUS_SRC`: `1.0 - src` in f32. -/
def FN_ONE_MINUS_SRC : F32 → F32 → F32 := fun s _ => fsub (lit 1 1) s

/-- `FN_ONE_MINUS_DST`: `1.0 - dst` in f32. -/
def FN_ONE_MINUS_DST : F32 → F32 → F32 := fun _ d => fsub (lit 1 1) d

/-- `PorterDuff::CLEAR`. -/
def CLEAR : PorterDuff := ⟨FN_ZERO, FN_ZERO⟩

/-- `PorterDuff::SRC`. -/
def SRC : PorterDuff := ⟨FN_ONE, FN_ZERO⟩

/-- `PorterDuff::DST`. -/
def DST : PorterDuff := ⟨FN_ZERO, FN_ONE⟩

/-- `PorterDuff::SRC_OVER`. -/
def SRC_OVER : PorterDuff := ⟨FN_SRC, FN_ONE_MINUS_SRC⟩

/-- `PorterDuff::DST_OVER`. -/
def DST_OVER : PorterDuff := ⟨FN_ONE_MINUS_DST, FN_DST⟩

/-- `PorterDuff::SRC_IN`. -/
def SRC_IN : PorterDuff := ⟨FN_DST, FN_ZERO⟩

/-- `PorterDuff::DST_IN`. -/
def DST_IN : PorterDuff := ⟨FN_ZERO, FN_SRC⟩

/-- `PorterDuff::SRC_OUT`. -/
def SRC_OUT : PorterDuff := ⟨FN_ONE_MINUS_DST, FN_ZERO⟩

/-- `PorterDuff::DST_OUT`. -/
def DST_OUT : PorterDuff := ⟨FN_ZERO, FN_ONE_MINUS_SRC⟩

/-- `PorterDuff::SRC_ATOP`. -/
def SRC_ATOP : PorterDuff := ⟨FN_DST, FN_ONE_MINUS_SRC⟩

/-- `PorterDuff::DST_ATOP`. -/
def DST_ATOP : PorterDuff := ⟨FN_ONE_MINUS_DST, FN_SRC⟩

/-- `PorterDuff::XOR`. -/
def XOR : PorterDuff := ⟨FN_ONE_MINUS_DST, FN_ONE_MINUS_SRC⟩

/-- `PorterDuff::PLUS`. -/
def PLUS : PorterDuff := ⟨FN_ONE, FN_ONE⟩

end PorterDuff

/-- The crate's closed `BlendMode` enum (`lib.rs`), 13 tags. -/
inductive BlendMode : Type where
  | Clear
  | Source
  | Destination
  | SourceOver
  | DestinationOver
  | SourceIn
  | DestinationIn
  | SourceOut
  | DestinationOut
  | SourceAtop
  | DestinationAtop
  | Xor
  | Plus
deriving DecidableEq, Repr

/-- `BlendMode::as_rgba_blend_f32`: dispatch a tag to its coefficient pair. -/
def BlendMode.asRgbaBlendF32 : BlendMode → PorterDuff
  | .Clear => PorterDuff.CLEAR
  | .Source => PorterDuff.SRC
  | .Destination => PorterDuff.DST
  | .SourceOver => PorterDuff.SRC_OVER
  | .DestinationOver => PorterDuff.DST_OVER
  | .SourceIn => PorterDuff.SRC_IN
  | .DestinationIn => PorterDuff.DST_IN
  | .SourceOut => PorterDuff.SRC_OUT
  | .DestinationOut => PorterDuff.DST_OUT
  | .SourceAtop => PorterDuff.SRC_ATOP
  | .DestinationAtop => PorterDuff.DST_ATOP
  | .Xor => PorterDuff.XOR
  | .Plus => PorterDuff.PLUS

/-- `RgbaBlend::apply` for `BlendMode`: resolve the tag and blend. -/
def BlendMode.apply (m : BlendMode) (src dst : F32x4Rgba) : F32x4Rgba :=
  (m.asRgbaBlendF32).blend src dst

/-- The crate's `MAX` constant in `rgba.rs`: `255.0f32`. -/
def MAX : F32 := lit 255 1

/-- `From<U8x4Rgba> for F32x4Rgba`: each channel `v` maps to `f32::from(v) / MAX`. -/
def U8x4Rgba.toF32 (c : U8x4Rgba) : F32x4Rgba :=
  ⟨fdiv (F32.ofNat c.r) MAX, fdiv (F32.ofNat c.g) MAX,
    fdiv (F32.ofNat c.b) MAX, fdiv (F32.ofNat c.a) MAX⟩

/-- `From<F32x4Rgba> for U8x4Rgba`: each channel maps to
`math::round(v * MAX) as u8`. -/
def F32x4Rgba.toU8 (c : F32x4Rgba) : U8x4Rgba :=
  ⟨(round (fmul c.r MAX)).asU8, (round (fmul c.g MAX)).asU8,
    (round (fmul c.b MAX)).asU8, (round (fmul c.a MAX)).asU8⟩

/-- The derived `PartialEq` on `Rgba<f32>`: field-wise f32 `==`. -/
def rgbaBeq (p q : F32x4Rgba) : Bool :=
  F32.beq p.r q.r && F32.beq p.g q.g && F32.beq p.b q.b && F32.beq p.a q.a

/-- All four channels of an f32 color are finite. -/
def rgbaFinite (c : F32x4Rgba) : Bool :=
  c.r.isFin && c.g.isFin && c.b.isFin && c.a.isFin

/-- All four channels of an f32 color are canonical representations. -/
def rgbaValid (c : F32x4Rgba) : Bool :=
  c.r.valid && c.g.valid && c.b.valid && c.a.valid

/-- No channel of an f32 color is NaN. -/
def rgbaNoNan (c : F32x4Rgba) : Bool :=
  (c.r != F32.nan) && (c.g != F32.nan) && (c.b != F32.nan) && (c.a != F32.nan)

/-- Clamp an integer into the `u8` range `[0, 255]`. -/
def clamp255 (z : Int) : Nat := (min 255 (max 0 z)).toNat

/-- Modelled from the claim's description of the narrowing cast: a NaN input
casts to 0, a negative infinity or negative value to 0, a positive infinity
to 255, a value above 255 to 255, and any other value to itself truncated
to an integer. -/
def castSpec (w : F32) : Nat :=
  match w with
  | .nan => 0
  | .inf s => if s then 0 else 255
  | .fin s e m =>
    if (F32.val (.fin s e m)).isNeg then 0
    else min 255 (Frac.natFloor (F32.val (.fin s e m)))

/-- The color whose four channels are all `0.0f32`. -/
def zeroColor : F32x4Rgba := ⟨lit 0 1, lit 0 1, lit 0 1, lit 0 1⟩

/-! ### Transport lemmas from `Frac` to `ℚ` -/

namespace Frac

theorem den_cast_pos {a : Frac} (h : a.WF) : (0 : ℚ) < (a.den : ℚ) := by
  exact_mod_cast h

theorem den_cast_ne {a : Frac} (h : a.WF) : (a.den : ℚ) ≠ 0 :=
  ne_of_gt (den_cast_pos h)

theorem toRat_ofNat (n : Nat) : (ofNat n).toRat = (n : ℚ) := by
  simp [ofNat, toRat]

theorem toRat_mul (a b : Frac) : (a.mul b).toRat = a.toRat * b.toRat := by
  simp only [mul, toRat]
  push_cast
  rw [div_mul_div_comm]

theorem toRat_neg (a : Frac) : a.neg.toRat = -a.toRat := by
  simp only [neg, toRat]
  push_cast
  rw [neg_div]

theorem toRat_add {a b : Frac} (ha : a.WF) (hb : b.WF) :
    (a.add b).toRat = a.toRat + b.toRat := by
  simp only [add, toRat]
  rw [div_add_div _ _ (den_cast_ne ha) (den_cast_ne hb)]
  push_cast
  ring_nf

theorem toRat_sub {a b : Frac} (ha : a.WF) (hb : b.WF) :
    (a.sub b).toRat = a.toRat - b.toRat := by
  rw [sub, toRat_add ha (by exact hb : b.neg.WF), toRat_neg]
  ring

theorem wf_mul {a b : Frac} (ha : a.WF) (hb : b.WF) : (a.mul b).WF :=
  Nat.mul_pos ha hb

theorem wf_add {a b : Frac} (ha : a.WF) (hb : b.WF) : (a.add b).WF :=
  Nat.mul_pos ha hb

theorem wf_neg {a : Frac} (ha : a.WF) : a.neg.WF := ha

theorem wf_sub {a b : Frac} (ha : a.WF) (hb : b.WF) : (a.sub b).WF :=
  wf_add ha hb

theorem wf_ofNat (n : Nat) : (ofNat n).WF := Nat.one_pos

theorem blt_iff {a b : Frac} (ha : a.WF) (hb : b.WF) :
    a.blt b = true ↔ a.toRat < b.toRat := by
  simp only [blt, toRat, decide_eq_true_eq]
  rw [div_lt_div_iff₀ (den_cast_pos ha) (den_cast_pos hb)]
  exact_mod_cast Iff.rfl

theorem beq_iff {a b : Frac} (ha : a.WF) (hb : b.WF) :
    a.beq b = true ↔ a.toRat = b.toRat := by
  simp only [beq, toRat, decide_eq_true_eq]
  rw [div_eq_div_iff (den_cast_ne ha) (den_cast_ne hb)]
  exact_mod_cast Iff.rfl

theorem isZero_iff {a : Frac} (ha : a.WF) : a.isZero = true ↔ a.toRat = 0 := by
  simp only [isZero, toRat, decide_eq_true_eq]
  rw [div_eq_zero_iff]
  constructor
  · intro h; exact Or.inl (by exact_mod_cast h)
  · rintro (h | h)
    · exact_mod_cast h
    · exact absurd h (den_cast_ne ha)

theorem isNeg_iff {a : Frac} (ha : a.WF) : a.isNeg = true ↔ a.toRat < 0 := by
  simp only [isNeg, toRat, decide_eq_true_eq]
  rw [div_neg_iff]
  constructor
  · intro h
    exact Or.inr ⟨by exact_mod_cast h, den_cast_pos ha⟩
  · rintro (⟨_, h⟩ | ⟨h, _⟩)
    · exact absurd h (not_lt.2 (le_of_lt (den_cast_pos ha)))
    · exact_mod_cast h

theorem num_pos_iff {a : Frac} (ha : a.WF) : 0 < a.num ↔ 0 < a.toRat := by
  rw [toRat, div_pos_iff]
  constructor
  · intro h; exact Or.inl ⟨by exact_mod_cast h, den_cast_pos ha⟩
  · rintro (⟨h, _⟩ | ⟨_, h⟩)
    · exact_mod_cast h
    · exact absurd h (not_lt.2 (le_of_lt (den_cast_pos ha)))

theorem num_neg_iff {a : Frac} (ha : a.WF) : a.num < 0 ↔ a.toRat < 0 := by
  rw [← isNeg_iff ha]
  simp [isNeg]

theorem num_nonneg_iff {a : Frac} (ha : a.WF) : 0 ≤ a.num ↔ 0 ≤ a.toRat := by
  rw [← not_lt, ← not_lt]
  exact not_congr (num_neg_iff ha)

theorem natFloor_le {a : Frac} (ha : a.WF) (h0 : 0 ≤ a.num) :
    (a.natFloor : ℚ) ≤ a.toRat ∧ a.toRat < (a.natFloor : ℚ) + 1 := by
  have hden : (0 : ℚ) < (a.den : ℚ) := den_cast_pos ha
  have hnum : a.num = (a.num.toNat : Int) := (Int.toNat_of_nonneg h0).symm
  have hdm := Nat.div_add_mod a.num.toNat a.den
  have hmod : a.num.toNat % a.den < a.den := Nat.mod_lt _ ha
  have h1 : a.natFloor * a.den ≤ a.num.toNat := Nat.div_mul_le_self _ _
  have h2 : a.num.toNat < (a.natFloor + 1) * a.den :=
    (Nat.div_lt_iff_lt_mul ha).1 (Nat.lt_succ_self _)
  constructor
  · rw [toRat, le_div_iff₀ hden]
    rw [hnum]
    exact_mod_cast h1
  · rw [toRat, div_lt_iff₀ hden]
    rw [hnum]
    push_cast
    exact_mod_cast h2

end Frac

/-! ### The binade search and grid rounding -/

theorem pow2_wf (k : Int) : (pow2 k).WF := by
  unfold pow2
  split_ifs <;> simp [Frac.WF, Nat.pos_pow_of_pos, Nat.two_pow_pos]

theorem toRat_pow2 (k : Int) : (pow2 k).toRat = (2 : ℚ) ^ k := by
  unfold pow2
  split_ifs with h
  · simp only [Frac.toRat]
    push_cast
    rw [div_one, ← zpow_natCast, Int.toNat_of_nonneg h]
  · simp only [Frac.toRat]
    push_cast
    rw [← zpow_natCast (2 : ℚ) (-k).toNat, Int.toNat_of_nonneg (by omega)]
    rw [one_div, ← zpow_neg, neg_neg]

theorem two_zpow_pos (k : Int) : (0 : ℚ) < 2 ^ k := zpow_pos two_pos k

theorem log2fuel_spec : ∀ f n : Nat, 1 ≤ n → n ≤ f →
    2 ^ log2fuel f n ≤ n ∧ n < 2 ^ (log2fuel f n + 1) := by
  intro f
  induction f with
  | zero => intro n h1 h2; omega
  | succ f ih =>
    intro n h1 h2
    by_cases h : n < 2
    · have hn : n = 1 := by omega
      simp [log2fuel, h, hn]
    · obtain ⟨ha, hb⟩ := ih (n / 2) (by omega) (by omega)
      simp only [log2fuel, if_neg h]
      have e1 : 2 ^ (log2fuel f (n / 2) + 1) = 2 * 2 ^ log2fuel f (n / 2) := by
        rw [pow_succ]; ring
      have e2 : 2 ^ (log2fuel f (n / 2) + 1 + 1) = 2 * 2 ^ (log2fuel f (n / 2) + 1) := by
        rw [pow_succ _ (log2fuel f (n / 2) + 1)]; ring
      omega

theorem nlog2_spec {n : Nat} (h : 1 ≤ n) :
    2 ^ nlog2 n ≤ n ∧ n < 2 ^ (nlog2 n + 1) :=
  log2fuel_spec n n h le_rfl

theorem nat_two_pow_cast (a : Nat) : ((2 ^ a : Nat) : ℚ) = (2 : ℚ) ^ ((a : Int)) := by
  push_cast
  rw [zpow_natCast]

theorem qlog2_spec {q : Frac} (hwf : q.WF) (hpos : 0 < q.num) :
    (2 : ℚ) ^ qlog2 q ≤ q.toRat ∧ q.toRat < (2 : ℚ) ^ (qlog2 q + 1) := by
  have hden : (0 : ℚ) < (q.den : ℚ) := Frac.den_cast_pos hwf
  obtain ⟨a1, a2⟩ := nlog2_spec (n := q.num.natAbs) (by omega)
  obtain ⟨b1, b2⟩ := nlog2_spec (n := q.den) hwf
  set A : Int := (nlog2 q.num.natAbs : Int) with hA
  set B : Int := (nlog2 q.den : Int) with hB
  have hnum_cast : ((q.num.natAbs : ℚ)) = (q.num : ℚ) := by
    rw [Int.cast_natAbs, abs_of_nonneg (by exact_mod_cast le_of_lt hpos)]
  have c1 : (2 : ℚ) ^ A ≤ (q.num : ℚ) := by
    rw [← hnum_cast, ← nat_two_pow_cast]
    exact_mod_cast a1
  have c2 : (q.num : ℚ) < (2 : ℚ) ^ (A + 1) := by
    have h' : ((q.num.natAbs : ℚ)) < ((2 ^ (nlog2 q.num.natAbs + 1) : Nat) : ℚ) := by
      exact_mod_cast a2
    rw [hnum_cast, nat_two_pow_cast] at h'
    have he : ((nlog2 q.num.natAbs + 1 : ℕ) : ℤ) = A + 1 := by
      rw [hA]
      push_cast
      ring
    rwa [he] at h'
  have c3 : (2 : ℚ) ^ B ≤ (q.den : ℚ) := by
    rw [← nat_two_pow_cast]
    exact_mod_cast b1
  have c4 : (q.den : ℚ) < (2 : ℚ) ^ (B + 1) := by
    have h' : ((q.den : ℚ)) < ((2 ^ (nlog2 q.den + 1) : Nat) : ℚ) := by
      exact_mod_cast b2
    rw [nat_two_pow_cast] at h'
    have he : ((nlog2 q.den + 1 : ℕ) : ℤ) = B + 1 := by
      rw [hB]
      push_cast
      ring
    rwa [he] at h'
  have hq_lo : (2 : ℚ) ^ (A - B - 1) < q.toRat := by
    rw [Frac.toRat, lt_div_iff₀ hden]
    calc (2 : ℚ) ^ (A - B - 1) * (q.den : ℚ)
        < (2 : ℚ) ^ (A - B - 1) * (2 : ℚ) ^ (B + 1) :=
          mul_lt_mul_of_pos_left c4 (two_zpow_pos _)
      _ = (2 : ℚ) ^ A := by
          rw [← zpow_add₀ (two_ne_zero : (2:ℚ) ≠ 0)]
          congr 1
          ring
      _ ≤ (q.num : ℚ) := c1
  have hq_hi : q.toRat < (2 : ℚ) ^ (A - B + 1) := by
    rw [Frac.toRat, div_lt_iff₀ hden]
    calc ((q.num : ℚ)) < (2 : ℚ) ^ (A + 1) := c2
      _ = (2 : ℚ) ^ (A - B + 1) * (2 : ℚ) ^ B := by
          rw [← zpow_add₀ (two_ne_zero : (2:ℚ) ≠ 0)]
          congr 1
          ring
      _ ≤ (2 : ℚ) ^ (A - B + 1) * (q.den : ℚ) :=
          mul_le_mul_of_nonneg_left c3 (le_of_lt (two_zpow_pos _))
  unfold qlog2
  simp only [← hA, ← hB]
  split_ifs with h1 h2
  · have h1' := (Frac.blt_iff hwf (pow2_wf _)).1 h1
    rw [toRat_pow2] at h1'
    refine ⟨le_of_lt hq_lo, ?_⟩
    have he : A - B - 1 + 1 = A - B := by ring
    rw [he]
    exact h1'
  · have h1' : ¬ q.toRat < (2:ℚ) ^ (A - B) := by
      intro hc
      exact h1 ((Frac.blt_iff hwf (pow2_wf _)).2 (by rw [toRat_pow2]; exact hc))
    have h2' := (Frac.blt_iff hwf (pow2_wf _)).1 h2
    rw [toRat_pow2] at h2'
    exact ⟨not_lt.1 h1', h2'⟩
  · exfalso
    have h2' : ¬ q.toRat < (2:ℚ) ^ (A - B + 1) := by
      intro hc
      exact h2 ((Frac.blt_iff hwf (pow2_wf _)).2 (by rw [toRat_pow2]; exact hc))
    exact h2' hq_hi

theorem qlog2_eq {q : Frac} (hwf : q.WF) (hpos : 0 < q.num) {t : Int}
    (h1 : (2 : ℚ) ^ t ≤ q.toRat) (h2 : q.toRat < (2 : ℚ) ^ (t + 1)) :
    qlog2 q = t := by
  obtain ⟨s1, s2⟩ := qlog2_spec hwf hpos
  by_contra hne
  rcases lt_or_gt_of_ne hne with hlt | hgt
  · have : (2 : ℚ) ^ (qlog2 q + 1) ≤ (2 : ℚ) ^ t :=
      zpow_le_zpow_right₀ one_le_two (by omega)
    linarith
  · have : (2 : ℚ) ^ (t + 1) ≤ (2 : ℚ) ^ (qlog2 q) :=
      zpow_le_zpow_right₀ one_le_two (by omega)
    linarith

theorem half_toRat : half.toRat = 1 / 2 := by
  simp [half, Frac.toRat]

theorem half_wf : half.WF := by
  simp [half, Frac.WF]

theorem rnde_exact {q : Frac} {k : Int} {m : Nat} (hwf : q.WF)
    (hv : q.toRat = (m : ℚ) * (2 : ℚ) ^ k) : rnde q k = m := by
  have htwf : (q.mul (pow2 (-k))).WF := Frac.wf_mul hwf (pow2_wf _)
  have ht : (q.mul (pow2 (-k))).toRat = (m : ℚ) := by
    rw [Frac.toRat_mul, toRat_pow2, hv, mul_assoc,
      ← zpow_add₀ (two_ne_zero : (2:ℚ) ≠ 0)]
    simp
  have hnum : 0 ≤ (q.mul (pow2 (-k))).num :=
    (Frac.num_nonneg_iff htwf).2 (by rw [ht]; positivity)
  obtain ⟨hl, hr⟩ := Frac.natFloor_le htwf hnum
  rw [ht] at hl hr
  have hf : (q.mul (pow2 (-k))).natFloor = m := by
    have hl' : (q.mul (pow2 (-k))).natFloor ≤ m := by exact_mod_cast hl
    have hr' : m < (q.mul (pow2 (-k))).natFloor + 1 := by exact_mod_cast hr
    omega
  have hz : ((q.mul (pow2 (-k))).sub (Frac.ofNat m)).toRat = 0 := by
    rw [Frac.toRat_sub htwf (Frac.wf_ofNat m), ht, Frac.toRat_ofNat]
    ring
  have hb : ((q.mul (pow2 (-k))).sub (Frac.ofNat m)).blt half = true := by
    rw [Frac.blt_iff (Frac.wf_sub htwf (Frac.wf_ofNat m)) half_wf, hz, half_toRat]
    norm_num
  simp only [rnde, hf]
  rw [if_pos hb]

theorem natFloor_eq_of_toRat {a : Frac} {v : Nat} (hwf : a.WF)
    (h : a.toRat = (v : ℚ)) : a.natFloor = v := by
  have hnum : 0 ≤ a.num := (Frac.num_nonneg_iff hwf).2 (by rw [h]; positivity)
  obtain ⟨hl, hr⟩ := Frac.natFloor_le hwf hnum
  rw [h] at hl hr
  have hl' : a.natFloor ≤ v := by exact_mod_cast hl
  have hr' : v < a.natFloor + 1 := by exact_mod_cast hr
  omega

theorem haway_exact {q : Frac} {v : Nat} (hwf : q.WF)
    (h : q.toRat = (v : ℚ)) : haway q = v := by
  have hf := natFloor_eq_of_toRat hwf h
  have hz : (q.sub (Frac.ofNat v)).toRat = 0 := by
    rw [Frac.toRat_sub hwf (Frac.wf_ofNat v), h, Frac.toRat_ofNat]
    ring
  have hb : (q.sub (Frac.ofNat v)).blt half = true := by
    rw [Frac.blt_iff (Frac.wf_sub hwf (Frac.wf_ofNat v)) half_wf, hz, half_toRat]
    norm_num
  simp only [haway, hf]
  rw [if_pos hb]

theorem haway_le_of_lt {q : Frac} {v : Nat} (hwf : q.WF)
    (h0 : 0 ≤ q.toRat) (h : q.toRat < (v : ℚ)) : haway q ≤ v := by
  have hnum : 0 ≤ q.num := (Frac.num_nonneg_iff hwf).2 h0
  obtain ⟨hl, _⟩ := Frac.natFloor_le hwf hnum
  have : (q.natFloor : ℚ) < (v : ℚ) := lt_of_le_of_lt hl h
  have hfl : q.natFloor < v := by exact_mod_cast this
  simp only [haway]
  split_ifs <;> omega

theorem rnde_le {q : Frac} {k : Int} {n : Nat} (hwf : q.WF)
    (h : q.toRat < (n : ℚ) * (2 : ℚ) ^ k) (h0 : 0 ≤ q.toRat) : rnde q k ≤ n := by
  have htwf : (q.mul (pow2 (-k))).WF := Frac.wf_mul hwf (pow2_wf _)
  have ht : (q.mul (pow2 (-k))).toRat = q.toRat * (2 : ℚ) ^ (-k) := by
    rw [Frac.toRat_mul, toRat_pow2]
  have htlt : (q.mul (pow2 (-k))).toRat < (n : ℚ) := by
    rw [ht]
    calc q.toRat * (2 : ℚ) ^ (-k) < ((n : ℚ) * (2 : ℚ) ^ k) * (2 : ℚ) ^ (-k) :=
          mul_lt_mul_of_pos_right h (two_zpow_pos _)
      _ = (n : ℚ) := by
          rw [mul_assoc, ← zpow_add₀ (two_ne_zero : (2:ℚ) ≠ 0)]
          simp
  have hnum : 0 ≤ (q.mul (pow2 (-k))).num :=
    (Frac.num_nonneg_iff htwf).2 (by rw [ht]; positivity)
  obtain ⟨hl, _⟩ := Frac.natFloor_le htwf hnum
  have hfl : ((q.mul (pow2 (-k))).natFloor : ℚ) < (n : ℚ) := lt_of_le_of_lt hl htlt
  have hfl' : (q.mul (pow2 (-k))).natFloor < n := by exact_mod_cast hfl
  simp only [rnde]
  split_ifs <;> omega

/-! ### Facts about the f32 magnitude and `roundPos` -/

theorem mag_wf (x : F32) : x.mag.WF :=
  Frac.wf_mul (Frac.wf_ofNat _) (pow2_wf _)

theorem mag_toRat (x : F32) :
    x.mag.toRat = (x.mantissa : ℚ) * (2 : ℚ) ^ x.expK := by
  rw [F32.mag, Frac.toRat_mul, Frac.toRat_ofNat, toRat_pow2]

theorem mag_nonneg (x : F32) : 0 ≤ x.mag.toRat := by
  rw [mag_toRat]
  positivity

theorem mag_pos {x : F32} (h : 0 < x.mantissa) : 0 < x.mag.toRat := by
  rw [mag_toRat]
  apply mul_pos _ (two_zpow_pos _)
  exact_mod_cast h

theorem mag_num_pos {x : F32} (h : 0 < x.mantissa) : 0 < x.mag.num :=
  (Frac.num_pos_iff (mag_wf x)).2 (mag_pos h)

theorem roundPos_aux {q : Frac} {L : Int} {mm : Nat} (hL : qlog2 q = L)
    (h126 : -126 ≤ L) (h127 : L ≤ 127) (hr : rnde q (L - 23) = mm)
    (hm1 : 2 ^ 23 ≤ mm) (hm2 : mm < 2 ^ 24) :
    roundPos q = F32.fin false (L + 127).toNat (mm - 2 ^ 23) := by
  simp only [roundPos, hL, max_eq_left h126, hr]
  simp only [if_neg (show ¬ (2 ^ 24 ≤ mm) by omega)]
  rw [if_neg (show ¬ ((127 : Int) < L) by omega),
    if_neg (show ¬ (mm < 2 ^ 23) by omega)]

theorem roundPos_aux_sub {q : Frac} {mm : Nat} (hL : qlog2 q ≤ -127)
    (hr : rnde q ((-126) - 23) = mm) (hm : mm < 2 ^ 23) :
    roundPos q = F32.fin false 0 mm := by
  simp only [roundPos, max_eq_right (show qlog2 q ≤ (-126 : Int) by omega), hr]
  simp only [if_neg (show ¬ (2 ^ 24 ≤ mm) by omega)]
  rw [if_neg (show ¬ ((127 : Int) < -126) by norm_num), if_pos hm]

theorem roundPos_valid (q : Frac) : (roundPos q).valid = true := by
  simp only [roundPos]
  split_ifs <;> simp [F32.valid] <;> omega

theorem roundPos_eq {q : Frac} {e m : Nat} (hwf : q.WF) (hpos : 0 < q.num)
    (he : e ≤ 254) (hm : m < 2 ^ 23) (h0 : 0 < F32.mantissa (.fin false e m))
    (hv : q.toRat = ((F32.fin false e m).mag).toRat) :
    roundPos q = F32.fin false e m := by
  rcases Nat.eq_zero_or_pos e with he0 | he1
  · subst he0
    have hmant : F32.mantissa (.fin false 0 m) = m := by simp [F32.mantissa]
    have hexp : F32.expK (.fin false 0 m) = -149 := by
      simp [F32.expK]
    have hval : q.toRat = (m : ℚ) * (2 : ℚ) ^ (-149 : Int) := by
      rw [hv, mag_toRat, hmant, hexp]
    have hm0 : 0 < m := by
      rw [hmant] at h0
      exact h0
    have hlt : q.toRat < (2 : ℚ) ^ (-126 : Int) := by
      rw [hval]
      calc (m : ℚ) * (2 : ℚ) ^ (-149 : Int)
          < ((2 ^ 23 : ℕ) : ℚ) * (2 : ℚ) ^ (-149 : Int) := by
            apply mul_lt_mul_of_pos_right _ (two_zpow_pos _)
            exact_mod_cast hm
        _ = (2 : ℚ) ^ (-126 : Int) := by
            rw [nat_two_pow_cast, ← zpow_add₀ (two_ne_zero : (2:ℚ) ≠ 0)]
            norm_num
    have hlog : qlog2 q ≤ -127 := by
      obtain ⟨hs1, _⟩ := qlog2_spec hwf hpos
      by_contra hc
      push_neg at hc
      have : (2 : ℚ) ^ (-126 : Int) ≤ (2 : ℚ) ^ (qlog2 q) :=
        zpow_le_zpow_right₀ one_le_two (by omega)
      linarith
    have hr : rnde q ((-126) - 23) = m := by
      apply rnde_exact hwf
      rw [hval]
      norm_num
    exact roundPos_aux_sub hlog hr hm
  · have hmant : F32.mantissa (.fin false e m) = 2 ^ 23 + m := by
      simp only [F32.mantissa]
      rw [if_neg (by omega)]
    have hexp : F32.expK (.fin false e m) = (e : Int) - 150 := by
      simp only [F32.expK]
      omega
    have hval : q.toRat = ((2 ^ 23 + m : ℕ) : ℚ) * (2 : ℚ) ^ ((e : Int) - 150) := by
      rw [hv, mag_toRat, hmant, hexp]
    have hlo : (2 : ℚ) ^ ((e : Int) - 127) ≤ q.toRat := by
      calc (2 : ℚ) ^ ((e : Int) - 127)
          = ((2 ^ 23 : ℕ) : ℚ) * (2 : ℚ) ^ ((e : Int) - 150) := by
            rw [nat_two_pow_cast, ← zpow_add₀ (two_ne_zero : (2:ℚ) ≠ 0)]
            congr 1
            ring
        _ ≤ ((2 ^ 23 + m : ℕ) : ℚ) * (2 : ℚ) ^ ((e : Int) - 150) := by
            apply mul_le_mul_of_nonneg_right _ (le_of_lt (two_zpow_pos _))
            exact_mod_cast Nat.le_add_right _ _
        _ = q.toRat := hval.symm
    have hhi : q.toRat < (2 : ℚ) ^ ((e : Int) - 127 + 1) := by
      calc q.toRat = ((2 ^ 23 + m : ℕ) : ℚ) * (2 : ℚ) ^ ((e : Int) - 150) := hval
        _ < ((2 ^ 24 : ℕ) : ℚ) * (2 : ℚ) ^ ((e : Int) - 150) := by
            apply mul_lt_mul_of_pos_right _ (two_zpow_pos _)
            exact_mod_cast (by omega : 2 ^ 23 + m < 2 ^ 24)
        _ = (2 : ℚ) ^ ((e : Int) - 127 + 1) := by
            rw [nat_two_pow_cast, ← zpow_add₀ (two_ne_zero : (2:ℚ) ≠ 0)]
            congr 1
            ring
    have hlog : qlog2 q = (e : Int) - 127 := qlog2_eq hwf hpos hlo hhi
    have hexp2 : (e : Int) - 127 - 23 = (e : Int) - 150 := by ring
    have hr : rnde q ((e : Int) - 127 - 23) = 2 ^ 23 + m := by
      apply rnde_exact hwf
      rw [hval, hexp2]
    have hfin := roundPos_aux hlog (by omega) (by omega) hr (by omega) (by omega)
    have h1 : ((e : Int) - 127 + 127).toNat = e := by omega
    have h2 : 2 ^ 23 + m - 2 ^ 23 = m := by omega
    rw [h1, h2] at hfin
    exact hfin

theorem roundPos_natval {n : Nat} (h1 : 0 < n) (h2 : n ≤ 2 ^ 24) :
    ∃ e m : Nat, roundPos (Frac.ofNat n) = F32.fin false e m ∧ e ≤ 254 ∧ m < 2 ^ 23 ∧
      ((F32.fin false e m).mag).toRat = (n : ℚ) := by
  rcases eq_or_lt_of_le h2 with h24 | h24
  · refine ⟨151, 0, ?_, by omega, by omega, ?_⟩
    · rw [h24]
      decide
    · rw [mag_toRat]
      rw [show F32.mantissa (.fin false 151 0) = 2 ^ 23 from rfl,
        show F32.expK (.fin false 151 0) = 1 from rfl, h24]
      rw [nat_two_pow_cast, ← zpow_add₀ (two_ne_zero : (2:ℚ) ≠ 0)]
      norm_num
  · obtain ⟨t1, t2⟩ := nlog2_spec (show 1 ≤ n by omega)
    have ht23 : nlog2 n ≤ 23 := by
      by_contra hc
      push_neg at hc
      have : 2 ^ 24 ≤ 2 ^ nlog2 n := Nat.pow_le_pow_right (by omega) (by omega)
      omega
    have hwf : (Frac.ofNat n).WF := Frac.wf_ofNat n
    have hpos : 0 < (Frac.ofNat n).num := by
      simp only [Frac.ofNat]
      exact_mod_cast h1
    have htr : (Frac.ofNat n).toRat = (n : ℚ) := Frac.toRat_ofNat n
    have hlog : qlog2 (Frac.ofNat n) = (nlog2 n : Int) := by
      apply qlog2_eq hwf hpos
      · rw [htr, ← nat_two_pow_cast]
        exact_mod_cast t1
      · rw [htr, show ((nlog2 n : Int) + 1) = ((nlog2 n + 1 : ℕ) : Int) by push_cast; ring,
          ← nat_two_pow_cast]
        exact_mod_cast t2
    have hcast23 : ((23 - nlog2 n : ℕ) : Int) = 23 - (nlog2 n : Int) := by omega
    have hmitte : ((n * 2 ^ (23 - nlog2 n) : ℕ) : ℚ) =
        (n : ℚ) * (2 : ℚ) ^ ((23 : Int) - (nlog2 n : Int)) := by
      push_cast
      rw [← zpow_natCast (2 : ℚ) (23 - nlog2 n), hcast23]
    have hr : rnde (Frac.ofNat n) ((nlog2 n : Int) - 23) = n * 2 ^ (23 - nlog2 n) := by
      apply rnde_exact hwf
      rw [htr, hmitte, mul_assoc, ← zpow_add₀ (two_ne_zero : (2:ℚ) ≠ 0)]
      norm_num
    have hm1 : 2 ^ 23 ≤ n * 2 ^ (23 - nlog2 n) := by
      calc (2 : ℕ) ^ 23 = 2 ^ nlog2 n * 2 ^ (23 - nlog2 n) := by
            rw [← pow_add]
            congr 1
            omega
        _ ≤ n * 2 ^ (23 - nlog2 n) := Nat.mul_le_mul_right _ t1
    have hm2 : n * 2 ^ (23 - nlog2 n) < 2 ^ 24 := by
      calc n * 2 ^ (23 - nlog2 n) < 2 ^ (nlog2 n + 1) * 2 ^ (23 - nlog2 n) :=
            (Nat.mul_lt_mul_right (Nat.two_pow_pos _)).2 t2
        _ = 2 ^ 24 := by
            rw [← pow_add]
            congr 1
            omega
    have hfin := roundPos_aux hlog (by omega) (by omega) hr hm1 hm2
    have hE : ((nlog2 n : Int) + 127).toNat = nlog2 n + 127 := by omega
    rw [hE] at hfin
    refine ⟨nlog2 n + 127, n * 2 ^ (23 - nlog2 n) - 2 ^ 23, hfin, by omega, by omega, ?_⟩
    rw [mag_toRat]
    rw [show F32.mantissa (.fin false (nlog2 n + 127) (n * 2 ^ (23 - nlog2 n) - 2 ^ 23)) =
        2 ^ 23 + (n * 2 ^ (23 - nlog2 n) - 2 ^ 23) from by
      simp only [F32.mantissa]
      rw [if_neg (by omega)]]
    rw [show F32.expK (.fin false (nlog2 n + 127) (n * 2 ^ (23 - nlog2 n) - 2 ^ 23)) =
        ((nlog2 n : Int)) - 23 from by
      simp only [F32.expK]
      omega]
    rw [show (2 ^ 23 + (n * 2 ^ (23 - nlog2 n) - 2 ^ 23)) = n * 2 ^ (23 - nlog2 n) from by omega]
    rw [hmitte, mul_assoc, ← zpow_add₀ (two_ne_zero : (2:ℚ) ≠ 0)]
    norm_num

/-! ### Facts about the f32 operations -/

set_option maxRecDepth 4000

theorem lit_zero : lit 0 1 = F32.fin false 0 0 := by decide

theorem lit_one : lit 1 1 = F32.fin false 127 0 := by decide

theorem mag_sign (s s' : Bool) (e m : Nat) :
    (F32.fin s e m).mag = (F32.fin s' e m).mag := rfl

theorem beq_self_fin (s : Bool) (e m : Nat) :
    F32.beq (.fin s e m) (.fin s e m) = true := by
  simp [F32.beq]

theorem mantissa_zero_cases {s : Bool} {e m : Nat}
    (h : F32.mantissa (.fin s e m) = 0) : e = 0 ∧ m = 0 := by
  simp only [F32.mantissa] at h
  by_cases he : e = 0
  · rw [if_pos he] at h
    exact ⟨he, h⟩
  · rw [if_neg he] at h
    omega

theorem val_wf (x : F32) : (F32.val x).WF := by
  cases x with
  | nan => exact Nat.one_pos
  | inf s => exact Nat.one_pos
  | fin s e m =>
    cases s
    · exact mag_wf _
    · exact Frac.wf_neg (mag_wf _)

theorem val_toRat_false (e m : Nat) :
    (F32.val (.fin false e m)).toRat = ((F32.fin false e m).mag).toRat := rfl

theorem val_toRat_true (e m : Nat) :
    (F32.val (.fin true e m)).toRat = -(((F32.fin true e m).mag).toRat) := by
  rw [show F32.val (.fin true e m) = ((F32.fin true e m).mag).neg from rfl, Frac.toRat_neg]

theorem val_zero_toRat (t : Bool) : (F32.val (.fin t 0 0)).toRat = 0 := by
  cases t
  · rw [val_toRat_false, mag_toRat]
    simp [F32.mantissa]
  · rw [val_toRat_true, mag_toRat]
    simp [F32.mantissa]

theorem mag_one_toRat : ((F32.fin false 127 0).mag).toRat = 1 := by
  rw [mag_toRat]
  rw [show F32.mantissa (.fin false 127 0) = 2 ^ 23 from rfl,
    show F32.expK (.fin false 127 0) = -23 from by decide]
  rw [nat_two_pow_cast, ← zpow_add₀ (two_ne_zero : (2:ℚ) ≠ 0)]
  norm_num

theorem fmul_one {x : F32} (hv : x.valid = true) (hn : x ≠ F32.nan) :
    fmul (lit 1 1) x = x := by
  rw [lit_one]
  cases x with
  | nan => exact absurd rfl hn
  | inf s => cases s <;> decide
  | fin s e m =>
    rcases Nat.eq_zero_or_pos (F32.mantissa (.fin s e m)) with h0 | h0
    · obtain ⟨he, hm⟩ := mantissa_zero_cases h0
      subst he
      subst hm
      cases s <;> decide
    · have hqwf : ((((F32.fin false 127 0).mag).mul ((F32.fin s e m).mag))).WF :=
        Frac.wf_mul (mag_wf _) (mag_wf _)
      have hqval : ((((F32.fin false 127 0).mag).mul ((F32.fin s e m).mag))).toRat =
          ((F32.fin false e m).mag).toRat := by
        rw [Frac.toRat_mul, mag_one_toRat, one_mul, mag_sign s false]
      have hq : ¬ (((((F32.fin false 127 0).mag).mul ((F32.fin s e m).mag))).isZero = true) := by
        rw [Frac.isZero_iff hqwf, hqval, mag_sign false s]
        exact ne_of_gt (mag_pos h0)
      have hvalid : e ≤ 254 ∧ m < 2 ^ 23 := by
        simpa [F32.valid] using hv
      have h0' : 0 < F32.mantissa (.fin false e m) := h0
      have hpos : 0 < ((((F32.fin false 127 0).mag).mul ((F32.fin s e m).mag))).num := by
        rw [Frac.num_pos_iff hqwf, hqval, mag_sign false s]
        exact mag_pos h0
      simp only [fmul, if_neg hq]
      rw [roundPos_eq hqwf hpos hvalid.1 hvalid.2 h0' hqval]
      cases s <;> rfl

theorem fmul_zero_left (t s : Bool) (e m : Nat) :
    fmul (.fin t 0 0) (.fin s e m) = .fin (xor t s) 0 0 := by
  have hq : ((((F32.fin t 0 0).mag).mul ((F32.fin s e m).mag))).isZero = true := by
    simp [F32.mag, F32.mantissa, Frac.mul, Frac.ofNat, Frac.isZero]
  simp only [fmul, if_pos hq]

theorem fadd_zero_zero : ∀ s t : Bool, fadd (.fin s 0 0) (.fin t 0 0) = .fin (s && t) 0 0 := by
  decide

theorem fadd_zero_right (t : Bool) {x : F32} (hv : x.valid = true) (hn : x ≠ F32.nan) :
    F32.beq (fadd x (.fin t 0 0)) x = true := by
  cases x with
  | nan => exact absurd rfl hn
  | inf s => cases s <;> cases t <;> decide
  | fin s e m =>
    rcases Nat.eq_zero_or_pos (F32.mantissa (.fin s e m)) with h0 | h0
    · obtain ⟨he, hm⟩ := mantissa_zero_cases h0
      subst he
      subst hm
      cases s <;> cases t <;> decide
    · have hvalid : e ≤ 254 ∧ m < 2 ^ 23 := by
        simpa [F32.valid] using hv
      have hrwf : ((((F32.fin s e m).val).add ((F32.fin t 0 0).val))).WF :=
        Frac.wf_add (val_wf _) (val_wf _)
      have hr_toRat : ((((F32.fin s e m).val).add ((F32.fin t 0 0).val))).toRat =
          (F32.val (.fin s e m)).toRat := by
        rw [Frac.toRat_add (val_wf _) (val_wf _), val_zero_toRat, add_zero]
      cases s
      · have hpos : 0 < ((((F32.fin false e m).val).add ((F32.fin t 0 0).val))).toRat := by
          rw [hr_toRat, val_toRat_false]
          exact mag_pos h0
        have hnz : ¬ (((((F32.fin false e m).val).add ((F32.fin t 0 0).val))).isZero = true) := by
          rw [Frac.isZero_iff hrwf]
          exact ne_of_gt hpos
        have hnn : ¬ (((((F32.fin false e m).val).add ((F32.fin t 0 0).val))).isNeg = true) := by
          rw [Frac.isNeg_iff hrwf]
          exact not_lt.2 (le_of_lt hpos)
        simp only [fadd, if_neg hnz, if_neg hnn]
        rw [roundPos_eq hrwf ((Frac.num_pos_iff hrwf).2 hpos) hvalid.1 hvalid.2 h0
          (by rw [hr_toRat, val_toRat_false])]
        exact beq_self_fin false e m
      · have hneg : ((((F32.fin true e m).val).add ((F32.fin t 0 0).val))).toRat < 0 := by
          rw [hr_toRat, val_toRat_true]
          have := mag_pos (x := .fin true e m) h0
          linarith
        have hnz : ¬ (((((F32.fin true e m).val).add ((F32.fin t 0 0).val))).isZero = true) := by
          rw [Frac.isZero_iff hrwf]
          exact ne_of_lt hneg
        have hnn : ((((F32.fin true e m).val).add ((F32.fin t 0 0).val))).isNeg = true := by
          rw [Frac.isNeg_iff hrwf]
          exact hneg
        simp only [fadd, if_neg hnz, if_pos hnn]
        have hnegwf : (((((F32.fin true e m).val).add ((F32.fin t 0 0).val))).neg).WF :=
          Frac.wf_neg hrwf
        have hnegval : (((((F32.fin true e m).val).add ((F32.fin t 0 0).val))).neg).toRat =
            ((F32.fin false e m).mag).toRat := by
          rw [Frac.toRat_neg, hr_toRat, val_toRat_true, neg_neg, mag_sign true false]
        have hnegpos : 0 < (((((F32.fin true e m).val).add ((F32.fin t 0 0).val))).neg).num := by
          rw [Frac.num_pos_iff hnegwf, hnegval]
          exact mag_pos h0
        rw [roundPos_eq hnegwf hnegpos hvalid.1 hvalid.2 h0 hnegval]
        exact beq_self_fin true e m

theorem fadd_zero_left (t : Bool) {x : F32} (hv : x.valid = true) (hn : x ≠ F32.nan) :
    F32.beq (fadd (.fin t 0 0) x) x = true := by
  cases x with
  | nan => exact absurd rfl hn
  | inf s => cases s <;> cases t <;> decide
  | fin s e m =>
    rcases Nat.eq_zero_or_pos (F32.mantissa (.fin s e m)) with h0 | h0
    · obtain ⟨he, hm⟩ := mantissa_zero_cases h0
      subst he
      subst hm
      cases s <;> cases t <;> decide
    · have hvalid : e ≤ 254 ∧ m < 2 ^ 23 := by
        simpa [F32.valid] using hv
      have hrwf : ((((F32.fin t 0 0).val).add ((F32.fin s e m).val))).WF :=
        Frac.wf_add (val_wf _) (val_wf _)
      have hr_toRat : ((((F32.fin t 0 0).val).add ((F32.fin s e m).val))).toRat =
          (F32.val (.fin s e m)).toRat := by
        rw [Frac.toRat_add (val_wf _) (val_wf _), val_zero_toRat, zero_add]
      cases s
      · have hpos : 0 < ((((F32.fin t 0 0).val).add ((F32.fin false e m).val))).toRat := by
          rw [hr_toRat, val_toRat_false]
          exact mag_pos h0
        have hnz : ¬ (((((F32.fin t 0 0).val).add ((F32.fin false e m).val))).isZero = true) := by
          rw [Frac.isZero_iff hrwf]
          exact ne_of_gt hpos
        have hnn : ¬ (((((F32.fin t 0 0).val).add ((F32.fin false e m).val))).isNeg = true) := by
          rw [Frac.isNeg_iff hrwf]
          exact not_lt.2 (le_of_lt hpos)
        simp only [fadd, if_neg hnz, if_neg hnn]
        rw [roundPos_eq hrwf ((Frac.num_pos_iff hrwf).2 hpos) hvalid.1 hvalid.2 h0
          (by rw [hr_toRat, val_toRat_false])]
        exact beq_self_fin false e m
      · have hneg : ((((F32.fin t 0 0).val).add ((F32.fin true e m).val))).toRat < 0 := by
          rw [hr_toRat, val_toRat_true]
          have := mag_pos (x := .fin true e m) h0
          linarith
        have hnz : ¬ (((((F32.fin t 0 0).val).add ((F32.fin true e m).val))).isZero = true) := by
          rw [Frac.isZero_iff hrwf]
          exact ne_of_lt hneg
        have hnn : ((((F32.fin t 0 0).val).add ((F32.fin true e m).val))).isNeg = true := by
          rw [Frac.isNeg_iff hrwf]
          exact hneg
        simp only [fadd, if_neg hnz, if_pos hnn]
        have hnegwf : (((((F32.fin t 0 0).val).add ((F32.fin true e m).val))).neg).WF :=
          Frac.wf_neg hrwf
        have hnegval : (((((F32.fin t 0 0).val).add ((F32.fin true e m).val))).neg).toRat =
            ((F32.fin false e m).mag).toRat := by
          rw [Frac.toRat_neg, hr_toRat, val_toRat_true, neg_neg, mag_sign true false]
        have hnegpos : 0 < (((((F32.fin t 0 0).val).add ((F32.fin true e m).val))).neg).num := by
          rw [Frac.num_pos_iff hnegwf, hnegval]
          exact mag_pos h0
        rw [roundPos_eq hnegwf hnegpos hvalid.1 hvalid.2 h0 hnegval]
        exact beq_self_fin true e m

/-! ### Facts about the narrowing cast and `math::round` -/

theorem withSign_valid (s : Bool) {x : F32} (h : x.valid = true) :
    (x.withSign s).valid = true := by
  cases x <;> simp_all [F32.withSign, F32.valid]

theorem fmul_valid (a b : F32) : (fmul a b).valid = true := by
  cases a <;> cases b <;> simp only [fmul] <;>
    first
      | rfl
      | (split_ifs <;> first | rfl | exact withSign_valid _ (roundPos_valid _))

theorem frac_neg_neg (a : Frac) : a.neg.neg = a := by
  simp [Frac.neg]

theorem mag_num_nonneg (x : F32) : 0 ≤ x.mag.num :=
  (Frac.num_nonneg_iff (mag_wf x)).2 (mag_nonneg x)

theorem clamp255_nat (n : Nat) : clamp255 (n : Int) = min 255 n := by
  simp only [clamp255]
  omega

theorem clamp255_nonpos {z : Int} (h : z ≤ 0) : clamp255 z = 0 := by
  simp only [clamp255]
  omega

theorem asU8_eq_castSpec (w : F32) : w.asU8 = castSpec w := by
  cases w with
  | nan => rfl
  | inf s => rfl
  | fin s e m =>
    cases s
    · have hnn : (F32.val (.fin false e m)).isNeg = false := by
        have h := mag_num_nonneg (.fin false e m)
        rw [show F32.val (.fin false e m) = (F32.fin false e m).mag from rfl]
        simp only [Frac.isNeg, decide_eq_false_iff_not]
        omega
      simp only [castSpec, F32.asU8, hnn, Bool.false_eq_true, if_false]
      rw [show F32.val (.fin false e m) = (F32.fin false e m).mag from rfl]
    · rcases Nat.eq_zero_or_pos (F32.mantissa (.fin true e m)) with h0 | h0
      · obtain ⟨he, hm⟩ := mantissa_zero_cases h0
        subst he
        subst hm
        decide
      · have hneg : (F32.val (.fin true e m)).isNeg = true := by
          rw [show F32.val (.fin true e m) = ((F32.fin true e m).mag).neg from rfl]
          simp only [Frac.neg, Frac.isNeg, decide_eq_true_eq]
          have := mag_num_pos (x := .fin true e m) h0
          omega
        simp [castSpec, F32.asU8, hneg]

theorem mag_int {x : F32} (h : 0 ≤ x.expK) :
    x.mag.toRat = ((x.mantissa * 2 ^ x.expK.toNat : ℕ) : ℚ) := by
  rw [mag_toRat]
  push_cast
  rw [← zpow_natCast (2 : ℚ) x.expK.toNat, Int.toNat_of_nonneg h]

theorem mag_lt_twopow23_or_int {s : Bool} {e m : Nat}
    (hv : (F32.fin s e m).valid = true) :
    ((F32.fin s e m).mag).toRat < ((2 ^ 23 : ℕ) : ℚ) ∨ 0 ≤ (F32.fin s e m).expK := by
  by_contra hc
  push_neg at hc
  obtain ⟨h1, h2⟩ := hc
  have hvalid : e ≤ 254 ∧ m < 2 ^ 23 := by simpa [F32.valid] using hv
  have hmant : F32.mantissa (.fin s e m) < 2 ^ 24 := by
    simp only [F32.mantissa]
    split_ifs <;> omega
  have hlt : ((F32.fin s e m).mag).toRat < ((2 ^ 24 : ℕ) : ℚ) * (2 : ℚ) ^ (-1 : Int) := by
    rw [mag_toRat]
    calc (F32.mantissa (.fin s e m) : ℚ) * (2 : ℚ) ^ (F32.fin s e m).expK
        ≤ (F32.mantissa (.fin s e m) : ℚ) * (2 : ℚ) ^ (-1 : Int) := by
          apply mul_le_mul_of_nonneg_left
            (zpow_le_zpow_right₀ one_le_two (by omega)) (by positivity)
      _ < ((2 ^ 24 : ℕ) : ℚ) * (2 : ℚ) ^ (-1 : Int) := by
          apply mul_lt_mul_of_pos_right _ (two_zpow_pos _)
          exact_mod_cast hmant
  have he : ((2 ^ 24 : ℕ) : ℚ) * (2 : ℚ) ^ (-1 : Int) = ((2 ^ 23 : ℕ) : ℚ) := by
    rw [nat_two_pow_cast, nat_two_pow_cast, ← zpow_add₀ (two_ne_zero : (2:ℚ) ≠ 0)]
    norm_num
  rw [he] at hlt
  linarith

theorem asU8_round_eq {s : Bool} {e m : Nat} (hv : (F32.fin s e m).valid = true) :
    (round (.fin s e m)).asU8 = clamp255 (rhalfAway (F32.val (.fin s e m))) := by
  have hmagwf := mag_wf (F32.fin s e m)
  have hmagnn := mag_nonneg (F32.fin s e m)
  rcases Nat.eq_zero_or_pos (haway ((F32.fin s e m).mag)) with hn | hn
  · -- the rounded magnitude is zero
    have hrnd : round (.fin s e m) = .fin s 0 0 := by
      simp only [round, hn]
      rfl
    have hrha : rhalfAway (F32.val (.fin s e m)) = 0 := by
      cases s
      · have hnn : (F32.val (.fin false e m)).isNeg = false := by
          have h := mag_num_nonneg (.fin false e m)
          rw [show F32.val (.fin false e m) = (F32.fin false e m).mag from rfl]
          simp only [Frac.isNeg, decide_eq_false_iff_not]
          omega
        rw [rhalfAway, hnn]
        simp only [Bool.false_eq_true, if_false]
        rw [show F32.val (.fin false e m) = (F32.fin false e m).mag from rfl, hn]
        rfl
      · rcases Nat.eq_zero_or_pos ((F32.fin true e m).mag).num.toNat with h0 | h0
        · have hmz : ((F32.fin true e m).mag).toRat = 0 := by
            have hnum : ((F32.fin true e m).mag).num = 0 := by
              have := mag_num_nonneg (.fin true e m)
              omega
            exact (Frac.isZero_iff hmagwf).1 (by simp [Frac.isZero, hnum])
          have hvz : (F32.val (.fin true e m)).isNeg = false := by
            rw [show F32.val (.fin true e m) = ((F32.fin true e m).mag).neg from rfl]
            simp only [Frac.neg, Frac.isNeg, decide_eq_false_iff_not]
            omega
          rw [rhalfAway, hvz]
          simp only [Bool.false_eq_true, if_false]
          rw [show F32.val (.fin true e m) = ((F32.fin true e m).mag).neg from rfl]
          have : (((F32.fin true e m).mag).neg).toRat = ((0 : ℕ) : ℚ) := by
            rw [Frac.toRat_neg, hmz]
            norm_num
          rw [haway_exact (Frac.wf_neg hmagwf) this]
          rfl
        · have hvn : (F32.val (.fin true e m)).isNeg = true := by
            rw [show F32.val (.fin true e m) = ((F32.fin true e m).mag).neg from rfl]
            simp only [Frac.neg, Frac.isNeg, decide_eq_true_eq]
            omega
          rw [rhalfAway, hvn]
          simp only [if_true]
          rw [show (F32.val (.fin true e m)).neg = (((F32.fin true e m).mag).neg).neg from rfl,
            frac_neg_neg, hn]
          rfl
    rw [hrnd, hrha]
    cases s
    · rw [show (F32.fin false 0 0).asU8 = 0 from rfl]
      rw [clamp255_nonpos le_rfl]
    · rw [show (F32.fin true 0 0).asU8 = 0 from rfl]
      rw [clamp255_nonpos le_rfl]
  · -- the rounded magnitude is a positive natural
    have hmagpos : 0 < ((F32.fin s e m).mag).toRat := by
      rcases lt_or_eq_of_le hmagnn with h | h
      · exact h
      · exfalso
        have : haway ((F32.fin s e m).mag) = 0 :=
          haway_exact hmagwf (by rw [← h]; norm_num)
        omega
    have hmagnum : 0 < ((F32.fin s e m).mag).num := (Frac.num_pos_iff hmagwf).2 hmagpos
    have hmant : 0 < F32.mantissa (.fin s e m) := by
      by_contra hc
      push_neg at hc
      have h0 : F32.mantissa (.fin s e m) = 0 := by omega
      have : ((F32.fin s e m).mag).toRat = 0 := by
        rw [mag_toRat, h0]
        norm_num
      linarith
    have hvalid : e ≤ 254 ∧ m < 2 ^ 23 := by simpa [F32.valid] using hv
    -- roundPos of the rounded magnitude is an exact finite value
    have hkey : ∃ e2 m2 : Nat, roundPos (Frac.ofNat (haway ((F32.fin s e m).mag))) =
        F32.fin false e2 m2 ∧
        ((F32.fin false e2 m2).mag).toRat = ((haway ((F32.fin s e m).mag) : ℕ) : ℚ) := by
      rcases mag_lt_twopow23_or_int (s := s) (e := e) (m := m) hv with hsmall | hbig
      · have hle : haway ((F32.fin s e m).mag) ≤ 2 ^ 23 :=
          haway_le_of_lt hmagwf hmagnn (by exact_mod_cast hsmall)
        obtain ⟨e2, m2, hfin, _, _, hmagv⟩ :=
          roundPos_natval hn (by omega)
        exact ⟨e2, m2, hfin, hmagv⟩
      · have hint := mag_int (x := .fin s e m) hbig
        have hhaway : haway ((F32.fin s e m).mag) =
            F32.mantissa (.fin s e m) * 2 ^ ((F32.fin s e m).expK).toNat :=
          haway_exact hmagwf hint
        refine ⟨e, m, ?_, ?_⟩
        · apply roundPos_eq (Frac.wf_ofNat _) (by simp [Frac.ofNat]; omega)
            hvalid.1 hvalid.2 hmant
          rw [Frac.toRat_ofNat, hhaway, ← hint, mag_sign s false]
        · rw [hhaway, ← hint, mag_sign false s]
    obtain ⟨e2, m2, hfin, hmagv⟩ := hkey
    have hrnd : round (.fin s e m) =
        (F32.fin false e2 m2).withSign s := by
      simp only [round, if_neg (by omega : ¬ (haway ((F32.fin s e m).mag) = 0)), hfin]
    rw [hrnd]
    cases s
    · -- positive: cast gives min 255 n
      have hnn : (F32.val (.fin false e m)).isNeg = false := by
        have h := mag_num_nonneg (.fin false e m)
        rw [show F32.val (.fin false e m) = (F32.fin false e m).mag from rfl]
        simp only [Frac.isNeg, decide_eq_false_iff_not]
        omega
      rw [show (F32.fin false e2 m2).withSign false = F32.fin false e2 m2 from rfl]
      rw [show (F32.fin false e2 m2).asU8 =
        min 255 (Frac.natFloor ((F32.fin false e2 m2).mag)) from rfl]
      rw [natFloor_eq_of_toRat (mag_wf _) hmagv]
      rw [rhalfAway, hnn]
      simp only [Bool.false_eq_true, if_false]
      rw [show F32.val (.fin false e m) = (F32.fin false e m).mag from rfl]
      rw [mag_sign false true, mag_sign true false]
      rw [clamp255_nat]
    · -- negative: cast gives 0
      have hvn : (F32.val (.fin true e m)).isNeg = true := by
        rw [show F32.val (.fin true e m) = ((F32.fin true e m).mag).neg from rfl]
        simp only [Frac.neg, Frac.isNeg, decide_eq_true_eq]
        omega
      rw [show (F32.fin false e2 m2).withSign true = F32.fin true e2 m2 from rfl]
      rw [show (F32.fin true e2 m2).asU8 = 0 from rfl]
      rw [rhalfAway, hvn]
      simp only [if_true]
      rw [show (F32.val (.fin true e m)).neg = (((F32.fin true e m).mag).neg).neg from rfl,
        frac_neg_neg]
      rw [clamp255_nonpos (by omega)]

/-! ### Lane-level consequences for the blend pipeline -/

theorem apply_lanes (m : BlendMode) (src dst : F32x4Rgba) :
    BlendMode.apply m src dst =
      ⟨fadd (fmul ((m.asRgbaBlendF32).src src.alpha dst.alpha) src.r)
          (fmul ((m.asRgbaBlendF32).dst src.alpha dst.alpha) dst.r),
        fadd (fmul ((m.asRgbaBlendF32).src src.alpha dst.alpha) src.g)
          (fmul ((m.asRgbaBlendF32).dst src.alpha dst.alpha) dst.g),
        fadd (fmul ((m.asRgbaBlendF32).src src.alpha dst.alpha) src.b)
          (fmul ((m.asRgbaBlendF32).dst src.alpha dst.alpha) dst.b),
        fadd (fmul ((m.asRgbaBlendF32).src src.alpha dst.alpha) src.a)
          (fmul ((m.asRgbaBlendF32).dst src.alpha dst.alpha) dst.a)⟩ := rfl

theorem lane_zero {cs cd : F32} (hcs : cs = F32.fin false 0 0)
    (hcd : cd = F32.fin false 0 0) {ch1 ch2 : F32}
    (h1 : ch1.isFin = true) (h2 : ch2.isFin = true) :
    F32.beq (fadd (fmul cs ch1) (fmul cd ch2)) (lit 0 1) = true := by
  subst hcs
  subst hcd
  cases ch1 with
  | nan => simp [F32.isFin] at h1
  | inf s1 => simp [F32.isFin] at h1
  | fin s1 e1 m1 =>
    cases ch2 with
    | nan => simp [F32.isFin] at h2
    | inf s2 => simp [F32.isFin] at h2
    | fin s2 e2 m2 =>
      rw [fmul_zero_left, fmul_zero_left, fadd_zero_zero, lit_zero]
      simp [F32.beq, F32.isZero]

theorem lane_id_left {cs cd : F32} (hcs : cs = lit 1 1)
    (hcd : cd = F32.fin false 0 0) {ch1 ch2 : F32}
    (hv : ch1.valid = true) (hn : ch1 ≠ F32.nan) (h2 : ch2.isFin = true) :
    F32.beq (fadd (fmul cs ch1) (fmul cd ch2)) ch1 = true := by
  subst hcs
  subst hcd
  rw [fmul_one hv hn]
  cases ch2 with
  | nan => simp [F32.isFin] at h2
  | inf s2 => simp [F32.isFin] at h2
  | fin s2 e2 m2 =>
    rw [fmul_zero_left]
    exact fadd_zero_right _ hv hn

theorem lane_id_right {cs cd : F32} (hcs : cs = F32.fin false 0 0)
    (hcd : cd = lit 1 1) {ch1 ch2 : F32}
    (h1 : ch1.isFin = true) (hv : ch2.valid = true) (hn : ch2 ≠ F32.nan) :
    F32.beq (fadd (fmul cs ch1) (fmul cd ch2)) ch2 = true := by
  subst hcs
  subst hcd
  rw [fmul_one hv hn]
  cases ch1 with
  | nan => simp [F32.isFin] at h1
  | inf s1 => simp [F32.isFin] at h1
  | fin s1 e1 m1 =>
    rw [fmul_zero_left]
    exact fadd_zero_left _ hv hn

/-! ### The claims -/

/-- Claim C1: for every blend mode and all f32 colors `src`, `dst`, the blend
returns the color whose every channel (alpha included) is
`cs * src.ch + cd * dst.ch` in f32 arithmetic, where `cs` and `cd` are the
mode's two coefficient functions evaluated at the two input alphas; alpha is
special only as input to the coefficient functions. -/
theorem claim_C1 (m : BlendMode) (src dst : F32x4Rgba) :
    BlendMode.apply m src dst =
      ⟨fadd (fmul ((m.asRgbaBlendF32).src src.alpha dst.alpha) src.r)
          (fmul ((m.asRgbaBlendF32).dst src.alpha dst.alpha) dst.r),
        fadd (fmul ((m.asRgbaBlendF32).src src.alpha dst.alpha) src.g)
          (fmul ((m.asRgbaBlendF32).dst src.alpha dst.alpha) dst.g),
        fadd (fmul ((m.asRgbaBlendF32).src src.alpha dst.alpha) src.b)
          (fmul ((m.asRgbaBlendF32).dst src.alpha dst.alpha) dst.b),
        fadd (fmul ((m.asRgbaBlendF32).src src.alpha dst.alpha) src.a)
          (fmul ((m.asRgbaBlendF32).dst src.alpha dst.alpha) dst.a)⟩ := rfl

/-- Claim C2: the 13 blend-mode tags dispatch to exactly the coefficient pairs
of the spec table, and the six coefficient primitives behave as specified:
`ZERO` is constantly `0.0`, `ONE` constantly `1.0`, `SRC` the source alpha,
`DST` the destination alpha, `ONE_MINUS_SRC` is `1.0 - sa` and
`ONE_MINUS_DST` is `1.0 - da` in f32 arithmetic. -/
theorem claim_C2 :
    (∀ sa da : F32,
      PorterDuff.FN_ZERO sa da = lit 0 1 ∧
      PorterDuff.FN_ONE sa da = lit 1 1 ∧
      PorterDuff.FN_SRC sa da = sa ∧
      PorterDuff.FN_DST sa da = da ∧
      PorterDuff.FN_ONE_MINUS_SRC sa da = fsub (lit 1 1) sa ∧
      PorterDuff.FN_ONE_MINUS_DST sa da = fsub (lit 1 1) da) ∧
    BlendMode.asRgbaBlendF32 .Clear = ⟨PorterDuff.FN_ZERO, PorterDuff.FN_ZERO⟩ ∧
    BlendMode.asRgbaBlendF32 .Source = ⟨PorterDuff.FN_ONE, PorterDuff.FN_ZERO⟩ ∧
    BlendMode.asRgbaBlendF32 .Destination = ⟨PorterDuff.FN_ZERO, PorterDuff.FN_ONE⟩ ∧
    BlendMode.asRgbaBlendF32 .SourceOver = ⟨PorterDuff.FN_SRC, PorterDuff.FN_ONE_MINUS_SRC⟩ ∧
    BlendMode.asRgbaBlendF32 .DestinationOver = ⟨PorterDuff.FN_ONE_MINUS_DST, PorterDuff.FN_DST⟩ ∧
    BlendMode.asRgbaBlendF32 .SourceIn = ⟨PorterDuff.FN_DST, PorterDuff.FN_ZERO⟩ ∧
    BlendMode.asRgbaBlendF32 .DestinationIn = ⟨PorterDuff.FN_ZERO, PorterDuff.FN_SRC⟩ ∧
    BlendMode.asRgbaBlendF32 .SourceOut = ⟨PorterDuff.FN_ONE_MINUS_DST, PorterDuff.FN_ZERO⟩ ∧
    BlendMode.asRgbaBlendF32 .DestinationOut = ⟨PorterDuff.FN_ZERO, PorterDuff.FN_ONE_MINUS_SRC⟩ ∧
    BlendMode.asRgbaBlendF32 .SourceAtop = ⟨PorterDuff.FN_DST, PorterDuff.FN_ONE_MINUS_SRC⟩ ∧
    BlendMode.asRgbaBlendF32 .DestinationAtop = ⟨PorterDuff.FN_ONE_MINUS_DST, PorterDuff.FN_SRC⟩ ∧
    BlendMode.asRgbaBlendF32 .Xor = ⟨PorterDuff.FN_ONE_MINUS_DST, PorterDuff.FN_ONE_MINUS_SRC⟩ ∧
    BlendMode.asRgbaBlendF32 .Plus = ⟨PorterDuff.FN_ONE, PorterDuff.FN_ONE⟩ :=
  ⟨fun _ _ => ⟨rfl, rfl, rfl, rfl, rfl, rfl⟩,
    rfl, rfl, rfl, rfl, rfl, rfl, rfl, rfl, rfl, rfl, rfl, rfl, rfl⟩

/-- Claim C3 counterexample: with a `+inf` channel in `dst`, blending with
`Source` does not return `src` — the channel becomes NaN (`0.0 * inf`), so
the result differs from `src` both structurally and under the crate's
f32 `==`. This refutes the claim's "no precondition on the channel values". -/
theorem claim_C3_cex :
    ¬ (BlendMode.apply .Source ⟨lit 0 1, lit 0 1, lit 0 1, lit 0 1⟩
        ⟨F32.inf false, lit 0 1, lit 0 1, lit 0 1⟩ =
        ⟨lit 0 1, lit 0 1, lit 0 1, lit 0 1⟩) ∧
    rgbaBeq (BlendMode.apply .Source ⟨lit 0 1, lit 0 1, lit 0 1, lit 0 1⟩
        ⟨F32.inf false, lit 0 1, lit 0 1, lit 0 1⟩)
      ⟨lit 0 1, lit 0 1, lit 0 1, lit 0 1⟩ = false := by
  decide

/-- Claim C3 (amended): for all canonically-represented f32 colors, blending
with `Source` returns `src` channel-for-channel under the crate's f32 `==`
provided no `src` channel is NaN and every `dst` channel is finite; and
symmetrically, `Destination` returns `dst` provided no `dst` channel is NaN
and every `src` channel is finite. -/
theorem claim_C3 (src dst : F32x4Rgba) (hsv : rgbaValid src = true)
    (hdv : rgbaValid dst = true) :
    (rgbaNoNan src = true → rgbaFinite dst = true →
      rgbaBeq (BlendMode.apply .Source src dst) src = true) ∧
    (rgbaFinite src = true → rgbaNoNan dst = true →
      rgbaBeq (BlendMode.apply .Destination src dst) dst = true) := by
  simp only [rgbaValid, Bool.and_eq_true] at hsv hdv
  obtain ⟨⟨⟨v1, v2⟩, v3⟩, v4⟩ := hsv
  obtain ⟨⟨⟨w1, w2⟩, w3⟩, w4⟩ := hdv
  constructor
  · intro hnn hf
    simp only [rgbaNoNan, Bool.and_eq_true, bne_iff_ne, ne_eq] at hnn
    obtain ⟨⟨⟨n1, n2⟩, n3⟩, n4⟩ := hnn
    simp only [rgbaFinite, Bool.and_eq_true] at hf
    obtain ⟨⟨⟨f1, f2⟩, f3⟩, f4⟩ := hf
    have hcs : (BlendMode.Source.asRgbaBlendF32).src src.alpha dst.alpha = lit 1 1 := rfl
    have hcd : (BlendMode.Source.asRgbaBlendF32).dst src.alpha dst.alpha =
        F32.fin false 0 0 := lit_zero
    rw [apply_lanes]
    simp only [rgbaBeq, Bool.and_eq_true]
    exact ⟨⟨⟨lane_id_left hcs hcd v1 n1 f1, lane_id_left hcs hcd v2 n2 f2⟩,
      lane_id_left hcs hcd v3 n3 f3⟩, lane_id_left hcs hcd v4 n4 f4⟩
  · intro hf hnn
    simp only [rgbaNoNan, Bool.and_eq_true, bne_iff_ne, ne_eq] at hnn
    obtain ⟨⟨⟨n1, n2⟩, n3⟩, n4⟩ := hnn
    simp only [rgbaFinite, Bool.and_eq_true] at hf
    obtain ⟨⟨⟨f1, f2⟩, f3⟩, f4⟩ := hf
    have hcs : (BlendMode.Destination.asRgbaBlendF32).src src.alpha dst.alpha =
        F32.fin false 0 0 := lit_zero
    have hcd : (BlendMode.Destination.asRgbaBlendF32).dst src.alpha dst.alpha = lit 1 1 := rfl
    rw [apply_lanes]
    simp only [rgbaBeq, Bool.and_eq_true]
    exact ⟨⟨⟨lane_id_right hcs hcd f1 w1 n1, lane_id_right hcs hcd f2 w2 n2⟩,
      lane_id_right hcs hcd f3 w3 n3⟩, lane_id_right hcs hcd f4 w4 n4⟩

/-- Claim C3 witness: the amended theorem applied to concrete colors with
negative, fractional and zero channels. -/
theorem claim_C3_witness :
    rgbaBeq (BlendMode.apply .Source ⟨lit 1 10, lit (-2) 10, lit 3 10, lit 1 2⟩
        ⟨lit 4 10, lit 0 1, lit (-6) 10, lit 1 1⟩)
      ⟨lit 1 10, lit (-2) 10, lit 3 10, lit 1 2⟩ = true ∧
    rgbaBeq (BlendMode.apply .Destination ⟨lit 1 10, lit (-2) 10, lit 3 10, lit 1 2⟩
        ⟨lit 4 10, lit 0 1, lit (-6) 10, lit 1 1⟩)
      ⟨lit 4 10, lit 0 1, lit (-6) 10, lit 1 1⟩ = true :=
  ⟨(claim_C3 ⟨lit 1 10, lit (-2) 10, lit 3 10, lit 1 2⟩
      ⟨lit 4 10, lit 0 1, lit (-6) 10, lit 1 1⟩ (by decide) (by decide)).1
      (by decide) (by decide),
    (claim_C3 ⟨lit 1 10, lit (-2) 10, lit 3 10, lit 1 2⟩
      ⟨lit 4 10, lit 0 1, lit (-6) 10, lit 1 1⟩ (by decide) (by decide)).2
      (by decide) (by decide)⟩

/-- Claim C4 counterexample: for the channel value `2.0`, the scaled and
rounded value is `510`; the code's cast yields `255` (saturation), not the
`510 mod 256 = 254` that truncation to the storage width would give — so the
conversion does clamp, refuting "truncation, not clamping". -/
theorem claim_C4_cex :
    (F32x4Rgba.toU8 ⟨lit 2 1, lit 0 1, lit 0 1, lit 0 1⟩).r = 255 ∧
    rhalfAway ((fmul (lit 2 1) MAX).val) = 510 ∧
    (255 : ℕ) ≠ 510 % 256 := by
  decide

/-- Claim C4 (amended): the float-to-8-bit conversion maps each channel `v`
independently (alpha treated identically) to `round(v * 255.0)` using
round-half-away-from-zero, and then converts the result to `u8` with a
saturating cast (clamping to `[0, 255]`), stated here for channels whose
scaled f32 product is finite. -/
theorem claim_C4 (c : F32x4Rgba)
    (hr : (fmul c.r MAX).isFin = true) (hg : (fmul c.g MAX).isFin = true)
    (hb : (fmul c.b MAX).isFin = true) (ha : (fmul c.a MAX).isFin = true) :
    F32x4Rgba.toU8 c =
      ⟨clamp255 (rhalfAway ((fmul c.r MAX).val)),
        clamp255 (rhalfAway ((fmul c.g MAX).val)),
        clamp255 (rhalfAway ((fmul c.b MAX).val)),
        clamp255 (rhalfAway ((fmul c.a MAX).val))⟩ := by
  have chan : ∀ v : F32, (fmul v MAX).isFin = true →
      (round (fmul v MAX)).asU8 = clamp255 (rhalfAway ((fmul v MAX).val)) := by
    intro v hfin
    have hval := fmul_valid v MAX
    cases hp : fmul v MAX with
    | nan => rw [hp] at hfin; simp [F32.isFin] at hfin
    | inf s => rw [hp] at hfin; simp [F32.isFin] at hfin
    | fin s e m =>
      rw [hp] at hval
      exact asU8_round_eq hval
  cases c with
  | mk r g b a =>
    simp only [F32x4Rgba.toU8]
    rw [chan r hr, chan g hg, chan b hb, chan a ha]

/-- Claim C4 witness: the amended theorem applied to a concrete color. -/
theorem claim_C4_witness :
    F32x4Rgba.toU8 ⟨lit 1 2, lit 0 1, lit 3 10, lit 1 1⟩ =
      ⟨clamp255 (rhalfAway ((fmul (lit 1 2) MAX).val)),
        clamp255 (rhalfAway ((fmul (lit 0 1) MAX).val)),
        clamp255 (rhalfAway ((fmul (lit 3 10) MAX).val)),
        clamp255 (rhalfAway ((fmul (lit 1 1) MAX).val))⟩ :=
  claim_C4 ⟨lit 1 2, lit 0 1, lit 3 10, lit 1 1⟩
    (by decide) (by decide) (by decide) (by decide)

/-- Claim C5 counterexample: `Plus` on `src=(0.1,0.2,0.3,1.0)`,
`dst=(0.4,0.5,0.6,1.0)` does not return exactly `(0.5,0.7,0.9,2.0)`: the
blue channel `0.3f32 + 0.6f32` differs from the f32 literal `0.9`. -/
theorem claim_C5_cex :
    ¬ BlendMode.apply .Plus ⟨lit 1 10, lit 2 10, lit 3 10, lit 1 1⟩
        ⟨lit 4 10, lit 5 10, lit 6 10, lit 1 1⟩ =
      ⟨lit 1 2, lit 7 10, lit 9 10, lit 2 1⟩ := by
  decide

/-- Claim C5 (amended): `Plus` on those inputs returns exactly the color of
channel-wise f32 sums, which is `(0.5, 0.7, b, 2.0)` with no clamping and
alpha exceeding 1, where the blue channel `b = 0.3f32 + 0.6f32` is the value
`0x3F666667` (printed `0.90000004`), one ULP above the f32 nearest `0.9`
(`0x3F666666`); red, green and alpha are exactly as claimed. -/
theorem claim_C5 :
    BlendMode.apply .Plus ⟨lit 1 10, lit 2 10, lit 3 10, lit 1 1⟩
        ⟨lit 4 10, lit 5 10, lit 6 10, lit 1 1⟩ =
      ⟨fadd (lit 1 10) (lit 4 10), fadd (lit 2 10) (lit 5 10),
        fadd (lit 3 10) (lit 6 10), fadd (lit 1 1) (lit 1 1)⟩ ∧
    fadd (lit 1 10) (lit 4 10) = lit 1 2 ∧
    fadd (lit 2 10) (lit 5 10) = lit 7 10 ∧
    fadd (lit 3 10) (lit 6 10) = F32.fin false 126 6710887 ∧
    F32.fin false 126 6710887 ≠ lit 9 10 ∧
    lit 9 10 = F32.fin false 126 6710886 ∧
    fadd (lit 1 1) (lit 1 1) = lit 2 1 := by
  refine ⟨rfl, by decide, by decide, by decide, by decide, by decide, by decide⟩

/-- Claim C6: for every 8-bit color whose channels lie in
`{0, 32, 64, 128, 255}`, converting to the f32 encoding (`v / 255.0`) and
back to 8-bit yields the color exactly, channel for channel. -/
theorem claim_C6 (c : U8x4Rgba)
    (h : c.r ∈ [0, 32, 64, 128, 255] ∧ c.g ∈ [0, 32, 64, 128, 255] ∧
      c.b ∈ [0, 32, 64, 128, 255] ∧ c.a ∈ [0, 32, 64, 128, 255]) :
    (U8x4Rgba.toF32 c).toU8 = c := by
  obtain ⟨h1, h2, h3, h4⟩ := h
  have key : ∀ v ∈ [0, 32, 64, 128, 255],
      (round (fmul (fdiv (F32.ofNat v) MAX) MAX)).asU8 = v := by decide
  cases c with
  | mk r g b a =>
    simp only [U8x4Rgba.toF32, F32x4Rgba.toU8]
    rw [key r h1, key g h2, key b h3, key a h4]

/-- Claim C6 witness: the round-trip theorem applied to a concrete color. -/
theorem claim_C6_witness :
    ((0 : ℕ) ∈ [0, 32, 64, 128, 255] ∧ (32 : ℕ) ∈ [0, 32, 64, 128, 255] ∧
      (64 : ℕ) ∈ [0, 32, 64, 128, 255] ∧ (128 : ℕ) ∈ [0, 32, 64, 128, 255]) ∧
    (U8x4Rgba.toF32 ⟨0, 32, 64, 128⟩).toU8 = (⟨0, 32, 64, 128⟩ : U8x4Rgba) :=
  ⟨by decide, claim_C6 ⟨0, 32, 64, 128⟩ (by decide)⟩

/-- Claim C7: `SourceOver` on `src=(1.0,0,0,0.5)` and `dst=(0,0,1.0,1.0)`
returns exactly `(0.5, 0, 0.5, 0.75)`. -/
theorem claim_C7 :
    BlendMode.apply .SourceOver ⟨lit 1 1, lit 0 1, lit 0 1, lit 1 2⟩
        ⟨lit 0 1, lit 0 1, lit 1 1, lit 1 1⟩ =
      ⟨lit 1 2, lit 0 1, lit 1 2, lit 3 4⟩ := by
  decide

/-- Claim C8 counterexample: on two fully-opaque colors with an infinite
color channel, `Xor` does not yield `(0,0,0,0)` — the channel becomes NaN —
refuting the claim's "other channels unconstrained". -/
theorem claim_C8_cex :
    ¬ (BlendMode.apply .Xor ⟨F32.inf false, lit 0 1, lit 0 1, lit 1 1⟩
        ⟨lit 0 1, lit 0 1, lit 0 1, lit 1 1⟩ = zeroColor) ∧
    rgbaBeq (BlendMode.apply .Xor ⟨F32.inf false, lit 0 1, lit 0 1, lit 1 1⟩
        ⟨lit 0 1, lit 0 1, lit 0 1, lit 1 1⟩) zeroColor = false := by
  decide

/-- Claim C8 (amended): for every pair of fully-opaque f32 colors
(`src.alpha = dst.alpha = 1.0`) whose red, green and blue channels are
finite, blending with `Xor`, `SourceOut` and `DestinationOut` each yields a
color channel-wise equal to `(0,0,0,0)` under the crate's f32 `==`. -/
theorem claim_C8 (src dst : F32x4Rgba)
    (hsa : src.alpha = lit 1 1) (hda : dst.alpha = lit 1 1)
    (h1 : src.r.isFin = true) (h2 : src.g.isFin = true) (h3 : src.b.isFin = true)
    (h4 : dst.r.isFin = true) (h5 : dst.g.isFin = true) (h6 : dst.b.isFin = true) :
    rgbaBeq (BlendMode.apply .Xor src dst) zeroColor = true ∧
    rgbaBeq (BlendMode.apply .SourceOut src dst) zeroColor = true ∧
    rgbaBeq (BlendMode.apply .DestinationOut src dst) zeroColor = true := by
  have hsf : src.alpha.isFin = true := by rw [hsa]; decide
  have hdf : dst.alpha.isFin = true := by rw [hda]; decide
  have homd : fsub (lit 1 1) dst.alpha = F32.fin false 0 0 := by rw [hda]; decide
  have homs : fsub (lit 1 1) src.alpha = F32.fin false 0 0 := by rw [hsa]; decide
  refine ⟨?_, ?_, ?_⟩
  · have hcs : (BlendMode.Xor.asRgbaBlendF32).src src.alpha dst.alpha =
        F32.fin false 0 0 := homd
    have hcd : (BlendMode.Xor.asRgbaBlendF32).dst src.alpha dst.alpha =
        F32.fin false 0 0 := homs
    rw [apply_lanes]
    simp only [rgbaBeq, Bool.and_eq_true]
    exact ⟨⟨⟨lane_zero hcs hcd h1 h4, lane_zero hcs hcd h2 h5⟩,
      lane_zero hcs hcd h3 h6⟩, lane_zero hcs hcd hsf hdf⟩
  · have hcs : (BlendMode.SourceOut.asRgbaBlendF32).src src.alpha dst.alpha =
        F32.fin false 0 0 := homd
    have hcd : (BlendMode.SourceOut.asRgbaBlendF32).dst src.alpha dst.alpha =
        F32.fin false 0 0 := lit_zero
    rw [apply_lanes]
    simp only [rgbaBeq, Bool.and_eq_true]
    exact ⟨⟨⟨lane_zero hcs hcd h1 h4, lane_zero hcs hcd h2 h5⟩,
      lane_zero hcs hcd h3 h6⟩, lane_zero hcs hcd hsf hdf⟩
  · have hcs : (BlendMode.DestinationOut.asRgbaBlendF32).src src.alpha dst.alpha =
        F32.fin false 0 0 := lit_zero
    have hcd : (BlendMode.DestinationOut.asRgbaBlendF32).dst src.alpha dst.alpha =
        F32.fin false 0 0 := homs
    rw [apply_lanes]
    simp only [rgbaBeq, Bool.and_eq_true]
    exact ⟨⟨⟨lane_zero hcs hcd h1 h4, lane_zero hcs hcd h2 h5⟩,
      lane_zero hcs hcd h3 h6⟩, lane_zero hcs hcd hsf hdf⟩

/-- Claim C8 witness: the amended theorem applied to concrete opaque colors
with negative and fractional channels. -/
theorem claim_C8_witness :
    rgbaBeq (BlendMode.apply .Xor ⟨lit 1 10, lit (-2) 10, lit 3 10, lit 1 1⟩
        ⟨lit 4 10, lit 5 10, lit (-6) 10, lit 1 1⟩) zeroColor = true ∧
    rgbaBeq (BlendMode.apply .SourceOut ⟨lit 1 10, lit (-2) 10, lit 3 10, lit 1 1⟩
        ⟨lit 4 10, lit 5 10, lit (-6) 10, lit 1 1⟩) zeroColor = true ∧
    rgbaBeq (BlendMode.apply .DestinationOut ⟨lit 1 10, lit (-2) 10, lit 3 10, lit 1 1⟩
        ⟨lit 4 10, lit 5 10, lit (-6) 10, lit 1 1⟩) zeroColor = true :=
  claim_C8 ⟨lit 1 10, lit (-2) 10, lit 3 10, lit 1 1⟩
    ⟨lit 4 10, lit 5 10, lit (-6) 10, lit 1 1⟩
    (by decide) (by decide) (by decide) (by decide) (by decide)
    (by decide) (by decide) (by decide)

/-- Claim C9 counterexample: with an infinite channel in `src`, `Clear` does
not return `(0,0,0,0)` — the channel becomes NaN (`0.0 * inf`) — refuting
the claim's "no precondition on the channel values". -/
theorem claim_C9_cex :
    ¬ (BlendMode.apply .Clear ⟨F32.inf false, lit 0 1, lit 0 1, lit 0 1⟩
        ⟨lit 0 1, lit 0 1, lit 0 1, lit 0 1⟩ = zeroColor) ∧
    rgbaBeq (BlendMode.apply .Clear ⟨F32.inf false, lit 0 1, lit 0 1, lit 0 1⟩
        ⟨lit 0 1, lit 0 1, lit 0 1, lit 0 1⟩) zeroColor = false := by
  decide

/-- Claim C9 (amended): for all f32 colors whose channels are all finite,
blending with `Clear` returns a color channel-wise equal to `(0,0,0,0)`
under the crate's f32 `==`. -/
theorem claim_C9 (src dst : F32x4Rgba)
    (hs : rgbaFinite src = true) (hd : rgbaFinite dst = true) :
    rgbaBeq (BlendMode.apply .Clear src dst) zeroColor = true := by
  simp only [rgbaFinite, Bool.and_eq_true] at hs hd
  obtain ⟨⟨⟨h1, h2⟩, h3⟩, h4⟩ := hs
  obtain ⟨⟨⟨h5, h6⟩, h7⟩, h8⟩ := hd
  have hcs : (BlendMode.Clear.asRgbaBlendF32).src src.alpha dst.alpha =
      F32.fin false 0 0 := lit_zero
  have hcd : (BlendMode.Clear.asRgbaBlendF32).dst src.alpha dst.alpha =
      F32.fin false 0 0 := lit_zero
  rw [apply_lanes]
  simp only [rgbaBeq, Bool.and_eq_true]
  exact ⟨⟨⟨lane_zero hcs hcd h1 h5, lane_zero hcs hcd h2 h6⟩,
    lane_zero hcs hcd h3 h7⟩, lane_zero hcs hcd h4 h8⟩

/-- Claim C9 witness: the amended theorem applied to concrete finite colors
with negative channels in both inputs. -/
theorem claim_C9_witness :
    rgbaBeq (BlendMode.apply .Clear ⟨lit (-1) 2, lit 0 1, lit 3 10, lit 1 1⟩
        ⟨lit (-1) 4, lit 2 1, lit 0 1, lit 0 1⟩) zeroColor = true :=
  claim_C9 ⟨lit (-1) 2, lit 0 1, lit 3 10, lit 1 1⟩
    ⟨lit (-1) 4, lit 2 1, lit 0 1, lit 0 1⟩ (by decide) (by decide)

/-- Claim C10: the float-to-8-bit conversion is total and never panics, and
per channel the narrowing `as u8` cast saturates rather than truncating
modulo 256: writing `w` for `round(v * 255.0)`, a NaN `w` gives 0, a
negative `w` (or negative infinity) gives 0, a `w` above 255 (or positive
infinity) gives 255, and otherwise the channel is `w`'s integer value —
exactly the case analysis of `castSpec`. -/
theorem claim_C10 (c : F32x4Rgba) :
    F32x4Rgba.toU8 c =
      ⟨castSpec (round (fmul c.r MAX)), castSpec (round (fmul c.g MAX)),
        castSpec (round (fmul c.b MAX)), castSpec (round (fmul c.a MAX))⟩ := by
  cases c with
  | mk r g b a =>
    simp only [F32x4Rgba.toU8]
    rw [asU8_eq_castSpec, asU8_eq_castSpec, asU8_eq_castSpec, asU8_eq_castSpec]

end AlphaBlend
